import Mathlib

/-!
Multi-ID generator (`src/script.js`, class `IDGenerator`).

A shallow embedding of the four identifier schemes of `script.js`:
`generateUUID`, `generateNanoID`, `generateHashID` and `generateSlug`, and of the batch driver
`generateIDs` with the count check `validateInput`, and of `UUIDUtils.isValidUUID`.

Modelling conventions.

* A JavaScript string is modelled by its list of characters (`List Char`); every string the
  generators handle is ASCII, so UTF-16 code units and characters coincide.
* A JavaScript number that holds a non-negative integer is modelled by that natural number.
  `%`, `+` and comparisons of the values that occur are exact; the one inexact operation,
  `Math.floor(num / alphabetLength)` of `generateHashID`, is modelled by `jsFloorDiv`, the floor
  of the quotient rounded to the nearest double (53-bit significand, ties to even), which is the
  exact quotient for arguments below `2 ^ 53`.
* The form controls are explicit arguments: the four checkboxes are a `CharConfig`, the parsed
  value of the length slider is an `Option Int` (`none` is `NaN`).
* `Math.random()` is an explicit stream of draws `rnd : Nat → Draw`; the `k`-th call returns
  `rnd k`, a fraction `num / den`.  The contract of `Math.random` (a value in `[0, 1)`) is the
  predicate `Draw.valid`, and `Math.floor(Math.random() * n)` is the exact floor of
  `num * n / den`.
* Unbounded `while` loops take a fuel argument; running out of fuel is the outcome
  `Error.outOfFuel`, an uncaught `TypeError` is the outcome `Error.typeError`.
* `generateIDs` is modelled on the state it touches (`generatedIDs` and the messages passed to
  `showError`); its timer callback is run to completion.
-/

namespace IDGenerator

/-! ## Data model -/

/-- The state of the four character-class checkboxes
(`uppercaseCheck`, `lowercaseCheck`, `numbersCheck`, `symbolsCheck`). -/
structure CharConfig where
  uppercase : Bool
  lowercase : Bool
  numbers : Bool
  symbols : Bool
deriving DecidableEq, Repr

/-- Abnormal outcomes of a run. -/
inductive Error where
  | typeError
  | outOfFuel
deriving DecidableEq, Repr

/-- One value returned by `Math.random()`, the fraction `num / den`. -/
structure Draw where
  num : Nat
  den : Nat
deriving DecidableEq, Repr

/-- The draw lies in `[0, 1)`. -/
def Draw.valid (d : Draw) : Prop := d.num < d.den

instance (d : Draw) : Decidable d.valid := by
  unfold Draw.valid
  infer_instance

/-- The value `Math.floor(Math.random() * n)` for the draw `d`. -/
def Draw.scale (d : Draw) (n : Nat) : Nat := d.num * n / d.den

/-- The JavaScript expression `parseInt(x) || d`: `NaN` and `0` are falsy. -/
def orDefault (v : Option Int) (d : Int) : Int :=
  match v with
  | some x => if x = 0 then d else x
  | none => d

/-- The JavaScript expression `s[i]` used as a string operand of `+`: a one-character string
when `i` is in range, and the text `undefined` otherwise. -/
def jsAt (s : List Char) (i : Nat) : List Char :=
  match s[i]? with
  | some c => [c]
  | none => "undefined".toList

/-- The JavaScript call `s.charAt(i)`: the empty string when `i` is out of range. -/
def charAt (s : List Char) (i : Nat) : List Char :=
  match s[i]? with
  | some c => [c]
  | none => []

/-- The JavaScript call `s.charCodeAt(i)` for an index in range (the only use reduces the index
modulo `s.length`). -/
def charCodeAt (s : List Char) (i : Nat) : Nat :=
  match s[i]? with
  | some c => c.toNat
  | none => 0

/-- The JavaScript call `s.substring(0, n)`; a negative `n` is treated as `0`. -/
def substring0 (s : List Char) (n : Int) : List Char := s.take n.toNat

def upperChars : List Char := "ABCDEFGHIJKLMNOPQRSTUVWXYZ".toList
def lowerChars : List Char := "abcdefghijklmnopqrstuvwxyz".toList
def digitChars : List Char := "0123456789".toList
def defaultAlphabet : List Char := "abcdefghijklmnopqrstuvwxyz0123456789".toList

/-- The alphabet resolved at the start of `generateNanoID` (lines 376-383). -/
def nanoAlphabet (cfg : CharConfig) : List Char :=
  let alphabet : List Char := []
  let alphabet := if cfg.uppercase then alphabet ++ upperChars else alphabet
  let alphabet := if cfg.lowercase then alphabet ++ lowerChars else alphabet
  let alphabet := if cfg.numbers then alphabet ++ digitChars else alphabet
  let alphabet := if cfg.symbols then alphabet ++ "-_.~!*()[]{}|:;@#$%^&+=?".toList else alphabet
  if alphabet.isEmpty then defaultAlphabet else alphabet

/-- The alphabet resolved at the start of `generateHashID` (lines 398-405). -/
def hashAlphabet (cfg : CharConfig) : List Char :=
  let alphabet : List Char := []
  let alphabet := if cfg.uppercase then alphabet ++ upperChars else alphabet
  let alphabet := if cfg.lowercase then alphabet ++ lowerChars else alphabet
  let alphabet := if cfg.numbers then alphabet ++ digitChars else alphabet
  let alphabet := if cfg.symbols then alphabet ++ "-_".toList else alphabet
  if alphabet.isEmpty then defaultAlphabet else alphabet

/-- The padding character set resolved in `generateSlug` (lines 450-468). -/
def slugCharset (cfg : CharConfig) : List Char :=
  let charset : List Char := []
  let charset := if cfg.uppercase then charset ++ upperChars else charset
  let charset := if cfg.lowercase then charset ++ lowerChars else charset
  let charset := if cfg.numbers then charset ++ digitChars else charset
  let charset := if cfg.symbols then charset ++ "_-".toList else charset
  if charset.isEmpty then lowerChars else charset

/-! ## `generateHashID` -/

/-- The constant `salt` of `generateHashID`. -/
def salt : List Char := "this is my salt".toList

/-- Auxiliary recursion of `floorLog2`: the number of halvings that keep `n` at least `1`. -/
def log2Aux : Nat → Nat → Nat
  | 0, _ => 0
  | fuel + 1, n => if n ≥ 2 then log2Aux fuel (n / 2) + 1 else 0

/-- The binary exponent `⌊log₂ n⌋` of a positive integer. -/
def floorLog2 (n : Nat) : Nat := log2Aux n n

/-- The JavaScript expression `Math.floor(a / b)` for doubles holding the non-negative
integers `a` and `b`.  The division is IEEE 754 binary64: the exact quotient `a / b` is rounded
to the nearest number with a 53-bit significand, ties to the even significand, and `Math.floor`
is then exact.

* `b = 0` with `a > 0` gives `Infinity`, which stays positive for ever: modelled by `a` itself
  (the alphabets of the program are never empty).  Overflow does not occur: the quotient of a
  finite double by an integer `b ≥ 1` is finite.
* For `a < b` the quotient lies in `[0, 1)`; it rounds to `1` exactly when it is at least
  `1 - 2 ^ (-54)`, the midpoint of `1` and its predecessor.
* Otherwise `2 ^ k ≤ a / b < 2 ^ (k + 1)` with `k = ⌊log₂ ⌊a / b⌋⌋`, the significand is the
  quotient scaled by `2 ^ (52 - k)` and rounded to an integer `m`, and the result is
  `⌊m * 2 ^ (k - 52)⌋`. -/
def jsFloorDiv (a b : Nat) : Nat :=
  if b = 0 then a
  else if a < b then (if (2 ^ 54 - 1) * b ≤ 2 ^ 54 * a then 1 else 0)
  else
    let k := floorLog2 (a / b)
    if k ≤ 52 then
      let s := 52 - k
      let m0 := a * 2 ^ s / b
      let r := a * 2 ^ s % b
      let m := if b < 2 * r ∨ (2 * r = b ∧ m0 % 2 = 1) then m0 + 1 else m0
      m / 2 ^ s
    else
      let s := k - 52
      let m0 := a / (b * 2 ^ s)
      let r := a % (b * 2 ^ s)
      let m := if b * 2 ^ s < 2 * r ∨ (2 * r = b * 2 ^ s ∧ m0 % 2 = 1) then m0 + 1 else m0
      m * 2 ^ s

/-- The `do ... while (num > 0)` loop of `generateHashID` (lines 415-418), entered with the
current `num` and `hash`; `num % alphabetLength` is exact on doubles, the division is
`jsFloorDiv`. -/
def baseLoop (alphabet : List Char) : Nat → Nat → List Char → Except Error (List Char)
  | 0, _, _ => .error .outOfFuel
  | fuel + 1, num, hash =>
    let hash := jsAt alphabet (num % alphabet.length) ++ hash
    let num := jsFloorDiv num alphabet.length
    if num > 0 then baseLoop alphabet fuel num hash else .ok hash

/-- The index `saltIndex` computed at line 422 for the current `hash`. -/
def saltIndex (alphabet hash : List Char) : Nat :=
  (hash.length + charCodeAt salt (hash.length % salt.length)) % alphabet.length

/-- The padding loop `while (hash.length < desiredLength)` (lines 421-424). -/
def padLoop (alphabet : List Char) (desiredLength : Int) : Nat → List Char →
    Except Error (List Char)
  | 0, hash => if (hash.length : Int) < desiredLength then .error .outOfFuel else .ok hash
  | fuel + 1, hash =>
    if (hash.length : Int) < desiredLength then
      padLoop alphabet desiredLength fuel (jsAt alphabet (saltIndex alphabet hash) ++ hash)
    else .ok hash

/-- The body of `generateHashID` after the alphabet and the desired length are resolved
(lines 410-431). -/
def encodeHashID (alphabet : List Char) (desiredLength : Int) (fuel number : Nat) :
    Except Error (List Char) :=
  match baseLoop alphabet fuel number [] with
  | .error e => .error e
  | .ok hash =>
    match padLoop alphabet desiredLength fuel hash with
    | .error e => .error e
    | .ok hash =>
      .ok (if (hash.length : Int) > desiredLength then substring0 hash desiredLength else hash)

/-- The method `generateHashID(number)` (lines 397-432). -/
def generateHashID (cfg : CharConfig) (lengthSlider : Option Int) (fuel number : Nat) :
    Except Error (List Char) :=
  encodeHashID (hashAlphabet cfg) (orDefault lengthSlider 8) fuel number

/-- The unpadded base-`|alphabet|` representation, the value of `hash` after the
`do ... while` loop of `generateHashID`. -/
def baseConvert (alphabet : List Char) (fuel number : Nat) : Except Error (List Char) :=
  baseLoop alphabet fuel number []

/-- Modelled from the spec: the digit value of a character, its position in the alphabet
(no decoder exists in `script.js`). -/
def digitValue : List Char → Char → Option Nat
  | [], _ => none
  | a :: rest, c => if c = a then some 0 else (digitValue rest c).map (· + 1)

/-- Modelled from the spec: `decode(s, alphabet)`, the standard base-conversion inverse, the sum
of `digitValue * |alphabet| ^ position` over the whole string (position 0 is the last
character); it fails when a character is absent from the alphabet. -/
def decode (s alphabet : List Char) : Option Nat :=
  match s with
  | [] => some 0
  | c :: cs =>
    match digitValue alphabet c, decode cs alphabet with
    | some d, some rest => some (d * alphabet.length ^ cs.length + rest)
    | _, _ => none

/-! ## `generateUUID` -/

/-- The template string of `generateUUID` (line 287). -/
def uuidTemplate : List Char := "xxxxxxxx-xxxx-4xxx-yxxx-xxxxxxxxxxxx".toList

/-- The JavaScript call `v.toString(16)` for a non-negative integer `v`. -/
def toString16 (v : Nat) : List Char := Nat.toDigits 16 v

/-- The replacer callback of `generateUUID` (lines 287-291) run on the matched character `c`
with the draw `d`; `Math.random() * 16 | 0` truncates, which is the floor for a draw in
`[0, 1)`. -/
def uuidReplacer (d : Draw) (c : Char) : List Char :=
  let r := d.scale 16
  let v := if c = 'x' then r else ((r &&& 0x3) ||| 0x8)
  toString16 v

/-- The call `template.replace(/[xy]/g, replacer)`: the text is scanned left to right, every
`x` or `y` is replaced by the callback's result (one call of `Math.random` per match, `k` is
the number of calls made so far), every other character is kept. -/
def replaceXY (rnd : Nat → Draw) : List Char → Nat → List Char
  | [], _ => []
  | c :: cs, k =>
    if c = 'x' ∨ c = 'y' then uuidReplacer (rnd k) c ++ replaceXY rnd cs (k + 1)
    else c :: replaceXY rnd cs k

/-- The method `generateUUID()` (lines 285-292). -/
def generateUUID (rnd : Nat → Draw) : List Char := replaceXY rnd uuidTemplate 0

/-! ## `generateNanoID` -/

/-- The loop `for (let i = 0; i < length; i++)` of `generateNanoID` (lines 386-388) with
`steps` iterations left, loop counter `i` and accumulated `result`; iteration `i` makes the
`i`-th call of `Math.random`. -/
def nanoLoop (alphabet : List Char) (rnd : Nat → Draw) : Nat → Nat → List Char → List Char
  | 0, _, result => result
  | steps + 1, i, result =>
    nanoLoop alphabet rnd steps (i + 1)
      (result ++ charAt alphabet ((rnd i).scale alphabet.length))

/-- The method `generateNanoID()` (lines 374-390); the loop runs `max(length, 0)` times. -/
def generateNanoID (cfg : CharConfig) (lengthSlider : Option Int) (rnd : Nat → Draw) :
    List Char :=
  let length := orDefault lengthSlider 21
  nanoLoop (nanoAlphabet cfg) rnd length.toNat 0 []

/-! ## `generateSlug` -/

/-- The constant array `words` of `generateSlug` (lines 440-445). -/
def words : List (List Char) :=
  ["awesome".toList, "brilliant".toList, "creative".toList, "dynamic".toList,
    "elegant".toList, "fantastic".toList, "gorgeous".toList, "incredible".toList,
    "amazing".toList, "beautiful".toList, "wonderful".toList, "perfect".toList,
    "project".toList, "article".toList, "post".toList, "content".toList, "story".toList,
    "guide".toList, "tutorial".toList, "example".toList, "sample".toList, "demo".toList,
    "test".toList, "new".toList, "latest".toList, "modern".toList, "fresh".toList]

/-- The constant `separator` of `generateSlug` (line 448). -/
def separator (cfg : CharConfig) : Char := if cfg.symbols then '_' else '-'

/-- The case transform applied to a chosen word (lines 476-480 and 501-505); the words are
ASCII, for which `toUpperCase` and `toLowerCase` act character by character. -/
def applyCase (cfg : CharConfig) (word : List Char) : List Char :=
  if cfg.uppercase then word.map Char.toUpper
  else if cfg.lowercase then word.map Char.toLower
  else word

/-- The expression `words[Math.floor(Math.random() * words.length)]` followed by the case
transform.  An index out of range yields `undefined`, and the statements that follow then throw
a `TypeError` (a method call or a `.length` access on `undefined`). -/
def pickWord (cfg : CharConfig) (d : Draw) : Except Error (List Char) :=
  match words[d.scale words.length]? with
  | some w => .ok (applyCase cfg w)
  | none => .error .typeError

/-- The loop `for (let i = 0; i < remaining; i++)` of lines 512-514 with `steps` iterations
left; `k` counts the calls of `Math.random` made so far. -/
def fillLoop (charset : List Char) (rnd : Nat → Draw) : Nat → Nat → List Char →
    List Char × Nat
  | 0, k, slug => (slug, k)
  | steps + 1, k, slug =>
    fillLoop charset rnd steps (k + 1) (slug ++ jsAt charset ((rnd k).scale charset.length))

/-- The loop `while (slug.length < targetLength)` of `generateSlug` (lines 485-521); `k` counts
the calls of `Math.random` made so far. -/
def slugLoop (cfg : CharConfig) (targetLength : Int) (rnd : Nat → Draw) :
    Nat → Nat → List Char → Except Error (List Char × Nat)
  | 0, k, slug =>
    if (slug.length : Int) < targetLength then .error .outOfFuel else .ok (slug, k)
  | fuel + 1, k, slug =>
    if (slug.length : Int) < targetLength then
      let charset := slugCharset cfg
      let remainingLength := targetLength - slug.length
      if remainingLength = 1 then
        slugLoop cfg targetLength rnd fuel (k + 1)
          (slug ++ jsAt charset ((rnd k).scale charset.length))
      else if remainingLength ≥ 2 then
        let slug := slug ++ [separator cfg]
        if remainingLength ≥ 3 then
          match pickWord cfg (rnd k) with
          | .error e => .error e
          | .ok processedWord =>
            if ((slug.length + processedWord.length : Nat) : Int) ≤ targetLength then
              slugLoop cfg targetLength rnd fuel (k + 1) (slug ++ processedWord)
            else
              let remaining := targetLength - slug.length
              let filled := fillLoop charset rnd remaining.toNat (k + 1) slug
              slugLoop cfg targetLength rnd fuel filled.2 filled.1
        else
          slugLoop cfg targetLength rnd fuel (k + 1)
            (slug ++ jsAt charset ((rnd k).scale charset.length))
      else slugLoop cfg targetLength rnd fuel k slug
    else .ok (slug, k)

/-- The method `generateSlug()` (lines 438-529) together with the number of calls of
`Math.random` it made. -/
def generateSlugAux (cfg : CharConfig) (lengthSlider : Option Int) (rnd : Nat → Draw)
    (fuel : Nat) : Except Error (List Char × Nat) :=
  let targetLength := orDefault lengthSlider 12
  match pickWord cfg (rnd 0) with
  | .error e => .error e
  | .ok word =>
    match slugLoop cfg targetLength rnd fuel 1 word with
    | .error e => .error e
    | .ok (slug, k) =>
      .ok (if (slug.length : Int) > targetLength then substring0 slug targetLength else slug, k)

/-- The method `generateSlug()` (lines 438-529). -/
def generateSlug (cfg : CharConfig) (lengthSlider : Option Int) (rnd : Nat → Draw)
    (fuel : Nat) : Except Error (List Char) :=
  match generateSlugAux cfg lengthSlider rnd fuel with
  | .error e => .error e
  | .ok (slug, _) => .ok slug

/-- One iteration of the body of the loop `while (slug.length < targetLength)` of
`generateSlug` (lines 486-520), run on the current `slug` with `k` calls of `Math.random` made so
far; it returns the new `slug` and the new number of calls. -/
def slugStep (cfg : CharConfig) (targetLength : Int) (rnd : Nat → Draw) (k : Nat)
    (slug : List Char) : Except Error (List Char × Nat) :=
  let charset := slugCharset cfg
  let remainingLength := targetLength - slug.length
  if remainingLength = 1 then
    .ok (slug ++ jsAt charset ((rnd k).scale charset.length), k + 1)
  else if remainingLength ≥ 2 then
    let slug := slug ++ [separator cfg]
    if remainingLength ≥ 3 then
      match pickWord cfg (rnd k) with
      | .error e => .error e
      | .ok processedWord =>
        if ((slug.length + processedWord.length : Nat) : Int) ≤ targetLength then
          .ok (slug ++ processedWord, k + 1)
        else
          let remaining := targetLength - slug.length
          let filled := fillLoop charset rnd remaining.toNat (k + 1) slug
          .ok (filled.1, filled.2)
    else
      .ok (slug ++ jsAt charset ((rnd k).scale charset.length), k + 1)
  else .ok (slug, k)

/-! ## `validateInput` and `generateIDs` -/

/-- The value of the type selector `typeSelect.value`; `other` is any text that is none of the
four `case` labels. -/
inductive Scheme where
  | uuid
  | nanoid
  | hashids
  | slug
  | other
deriving DecidableEq, Repr

/-- The part of the application state the batch driver touches: the field `generatedIDs` and
the messages passed to `showError` so far (most recent first). -/
structure App where
  generatedIDs : List (List Char)
  errors : List String
deriving DecidableEq, Repr

/-- The method `validateInput()` (lines 268-279): the value it assigns to
`generateBtn.disabled`, for the parsed value of the count field (`none` is `NaN`, for which
both comparisons are false). -/
def validateInput (countInput : Option Int) : Bool :=
  let isValid : Bool :=
    match countInput with
    | some count => decide (count ≥ 1) && decide (count ≤ 10000)
    | none => false
  !isValid

/-- The number of calls of `Math.random` made by one run of `generateUUID`: one per `x` or `y`
of the template. -/
def uuidDraws : Nat := (uuidTemplate.filter (fun c => c = 'x' ∨ c = 'y')).length

/-- The `switch (type)` statement of the batch loop (lines 341-356) at loop index `i`, run with
the random stream `rnd` still to be consumed; it returns the identifier and the number of
calls of `Math.random` it made. -/
def generateOne (type : Scheme) (cfg : CharConfig) (lengthSlider : Option Int) (fuel : Nat)
    (rnd : Nat → Draw) (i : Nat) : Except Error (List Char × Nat) :=
  match type with
  | .uuid => .ok (generateUUID rnd, uuidDraws)
  | .nanoid => .ok (generateNanoID cfg lengthSlider rnd, (orDefault lengthSlider 21).toNat)
  | .hashids =>
    match generateHashID cfg lengthSlider fuel (i + 1) with
    | .error e => .error e
    | .ok id => .ok (id, 0)
  | .slug => generateSlugAux cfg lengthSlider rnd fuel
  | .other => .ok (generateUUID rnd, uuidDraws)

/-- The loop `for (let i = 0; i < count; i++)` of `generateIDs` (lines 339-358) with `steps`
iterations left, loop index `i`, `k` calls of `Math.random` made so far and the current
content `ids` of `generatedIDs`.  It returns the final content of `generatedIDs` and the
exception that ended the loop, if any. -/
def batchLoop (type : Scheme) (cfg : CharConfig) (lengthSlider : Option Int) (fuel : Nat)
    (rnd : Nat → Draw) : Nat → Nat → Nat → List (List Char) → List (List Char) × Option Error
  | 0, _, _, ids => (ids, none)
  | steps + 1, i, k, ids =>
    match generateOne type cfg lengthSlider fuel (fun j => rnd (k + j)) i with
    | .error e => (ids, some e)
    | .ok (id, n) => batchLoop type cfg lengthSlider fuel rnd steps (i + 1) (k + n) (ids ++ [id])

/-- The method `generateIDs()` (lines 322-368) run on the state `app`, with the parsed value of
the count field `countInput`; the result is the state once the timer callback has run.  A
`TypeError` is caught by the `try` statement; running out of fuel is not an outcome of the
program and is passed on. -/
def generateIDs (app : App) (countInput : Option Int) (type : Scheme) (cfg : CharConfig)
    (lengthSlider : Option Int) (fuel : Nat) (rnd : Nat → Draw) : Except Error App :=
  let count := orDefault countInput 1
  if count < 1 ∨ count > 10000 then
    .ok { app with errors := "Enter a number between 1 and 10,000" :: app.errors }
  else
    match batchLoop type cfg lengthSlider fuel rnd count.toNat 0 0 [] with
    | (ids, none) => .ok { app with generatedIDs := ids }
    | (ids, some .typeError) =>
      .ok { generatedIDs := ids,
            errors := "An error occurred while generating IDs" :: app.errors }
    | (_, some .outOfFuel) => .error .outOfFuel

/-! ## `UUIDUtils.isValidUUID` -/

/-- One item of the regular expression of `isValidUUID`: a character class with its repeat
count.  `[0-9a-f]{8}` is the class `0123456789abcdef` repeated 8 times; a literal character is a
one-character class repeated once. -/
structure RegexPiece where
  chars : List Char
  count : Nat
deriving DecidableEq, Repr

/-- Membership of a character in a class under the flag `i`: equality with one of the
characters of the class up to case. -/
def inClass (cls : List Char) (c : Char) : Bool :=
  cls.any (fun x => x.toLower == c.toLower)

/-- Matching `cls{n}` at the start of `s`: the rest of the text after `n` characters of the
class, or nothing. -/
def matchRepeat (cls : List Char) : Nat → List Char → Option (List Char)
  | 0, s => some s
  | _ + 1, [] => none
  | n + 1, c :: s => if inClass cls c then matchRepeat cls n s else none

/-- Matching a sequence of items anchored at both ends (`^ ... $`). -/
def matchPieces : List RegexPiece → List Char → Bool
  | [], s => s.isEmpty
  | p :: ps, s =>
    match matchRepeat p.chars p.count s with
    | some rest => matchPieces ps rest
    | none => false

/-- The regular expression
`/^[0-9a-f]{8}-[0-9a-f]{4}-4[0-9a-f]{3}-[89ab][0-9a-f]{3}-[0-9a-f]{12}$/i` (line 908). -/
def uuidRegex : List RegexPiece :=
  [⟨"0123456789abcdef".toList, 8⟩, ⟨['-'], 1⟩,
   ⟨"0123456789abcdef".toList, 4⟩, ⟨['-'], 1⟩,
   ⟨['4'], 1⟩, ⟨"0123456789abcdef".toList, 3⟩, ⟨['-'], 1⟩,
   ⟨"89ab".toList, 1⟩, ⟨"0123456789abcdef".toList, 3⟩, ⟨['-'], 1⟩,
   ⟨"0123456789abcdef".toList, 12⟩]

/-- The function `UUIDUtils.isValidUUID(uuid)` (lines 907-910). -/
def isValidUUID (uuid : List Char) : Bool := matchPieces uuidRegex uuid

/-! ## Character classes -/

/-- The symbol range of `generateNanoID` (line 381). -/
def broadSymbols : List Char := "-_.~!*()[]{}|:;@#$%^&+=?".toList

/-- The symbol range of `generateHashID` (line 403). -/
def narrowSymbols : List Char := "-_".toList

/-- The ranges of the enabled character classes, in the order of the checkboxes, for the symbol
range `symbols`. -/
def enabledRanges (cfg : CharConfig) (symbols : List Char) : List (List Char) :=
  (if cfg.uppercase then [upperChars] else []) ++
    (if cfg.lowercase then [lowerChars] else []) ++
    (if cfg.numbers then [digitChars] else []) ++
    (if cfg.symbols then [symbols] else [])

/-- The number of the given ranges that contain the character `c`. -/
def rangeCount (ranges : List (List Char)) (c : Char) : Nat :=
  ranges.countP (fun r => decide (c ∈ r))

/-! ## Proof-side descriptions of the encoding -/

/-- The character `alphabet[d]` of a digit `d`. -/
def digitChar (alphabet : List Char) (d : Nat) : Char := alphabet.getD d 'u'

/-- The digits of `n` in base `b`, most significant first; `0` has the one digit `0`. -/
def beDigits (b n : Nat) : List Nat := if n = 0 then [0] else (Nat.digits b n).reverse

/-- The positional representation of `n` written with the characters of `alphabet`. -/
def reprOf (alphabet : List Char) (n : Nat) : List Char :=
  (beDigits alphabet.length n).map (digitChar alphabet)

/-- The string the base-conversion loop of `generateHashID` produces for `n` (the loop run
with fuel for `n + 1` iterations). -/
def reprJS (alphabet : List Char) (n : Nat) : List Char :=
  match baseLoop alphabet (n + 1) n [] with
  | .ok u => u
  | .error _ => []

/-- The padding character prepended when the current length is `j`. -/
def saltChar (alphabet : List Char) (j : Nat) : Char :=
  digitChar alphabet ((j + charCodeAt salt (j % salt.length)) % alphabet.length)

/-- The padding prepended to a string of length `k` to reach length `L`. -/
def padPrefix (alphabet : List Char) (k L : Nat) : List Char :=
  (List.range' k (L - k)).reverse.map (saltChar alphabet)

/-- The lowercase hexadecimal digits. -/
def hexChars : List Char := "0123456789abcdef".toList

/-- The relation between a template character `t` and the character `h` that replaces it:
`x` becomes a hexadecimal digit, `y` one of `8`, `9`, `a`, `b`, anything else is kept. -/
def uuidCharOK (t h : Char) : Prop :=
  if t = 'x' then h ∈ hexChars
  else if t = 'y' then h ∈ ['8', '9', 'a', 'b']
  else h = t

/-- The characters that need no URL encoding: ASCII letters, digits and `-`, `_`, `.`, `~`. -/
def urlSafeChars : List Char := upperChars ++ lowerChars ++ digitChars ++ "-_.~".toList

/-- The characters a slug can contain under the configuration `cfg`: ASCII letters, digits,
`-`, and `_` when the symbol class is enabled. -/
def slugAllowed (cfg : CharConfig) : List Char :=
  upperChars ++ lowerChars ++ digitChars ++ ['-'] ++ (if cfg.symbols then ['_'] else [])

/-- The classes of a sequence of regular-expression items, one per matched character. -/
def expandPieces : List RegexPiece → List (List Char)
  | [] => []
  | p :: ps => List.replicate p.count p.chars ++ expandPieces ps

/-! ## Lemmas on the encoding -/

theorem jsAt_of_lt (A : List Char) (i : Nat) (h : i < A.length) :
    jsAt A i = [digitChar A i] := by
  simp [jsAt, digitChar, List.getElem?_eq_getElem h]

theorem beDigits_length_pos (b n : Nat) : 0 < (beDigits b n).length := by
  unfold beDigits
  split
  · simp
  · rename_i h
    have := (Nat.digits_ne_nil_iff_ne_zero (b := b)).mpr h
    simpa [List.length_pos] using this

theorem reprOf_length (A : List Char) (n : Nat) :
    (reprOf A n).length = (beDigits A.length n).length := by
  simp [reprOf]

theorem reprOf_length_pos (A : List Char) (n : Nat) : 0 < (reprOf A n).length := by
  rw [reprOf_length]
  exact beDigits_length_pos _ _

theorem beDigits_step (b n : Nat) (hb : 2 ≤ b) (h : 0 < n / b) :
    beDigits b n = beDigits b (n / b) ++ [n % b] := by
  have hn : n ≠ 0 := by
    rintro rfl
    simp at h
  have hq : n / b ≠ 0 := by omega
  simp [beDigits, hn, hq, Nat.digits_def' (by omega : 1 < b) (Nat.pos_of_ne_zero hn)]

theorem beDigits_small (b n : Nat) (h : n < b) : beDigits b n = [n] := by
  unfold beDigits
  split
  · subst_vars
    rfl
  · rename_i hn
    simp [Nat.digits_of_lt b n hn h]

theorem log2Aux_eq : ∀ (fuel n : Nat), n ≤ fuel → log2Aux fuel n = Nat.log2 n := by
  intro fuel
  induction fuel with
  | zero =>
    intro n h
    have : n = 0 := by omega
    subst this
    simp [log2Aux, Nat.log2_zero]
  | succ fuel ih =>
    intro n h
    rw [log2Aux, Nat.log2]
    by_cases h2 : n ≥ 2
    · rw [if_pos h2, if_pos h2, ih (n / 2) (by omega)]
    · rw [if_neg h2, if_neg h2]

theorem floorLog2_eq (n : Nat) : floorLog2 n = Nat.log2 n := log2Aux_eq n n (le_refl _)

theorem floorLog2_le (n : Nat) (h : 0 < n) : 2 ^ floorLog2 n ≤ n := by
  rw [floorLog2_eq]
  exact Nat.log2_self_le (by omega)

theorem floorLog2_lt (n : Nat) : n < 2 ^ (floorLog2 n + 1) := by
  rw [floorLog2_eq]
  exact Nat.lt_log2_self

theorem jsFloorDiv_zero (b : Nat) : jsFloorDiv 0 b = 0 := by
  unfold jsFloorDiv
  by_cases hb : b = 0
  · simp [hb]
  · have : 0 < b := Nat.pos_of_ne_zero hb
    simp [hb, this]

theorem jsFloorDiv_eq_div (a b : Nat) (hb : 0 < b) (hb' : b < 2 ^ 53) (ha : a < 2 ^ 53) :
    jsFloorDiv a b = a / b := by
  unfold jsFloorDiv
  rw [if_neg (by omega : ¬ b = 0)]
  by_cases hab : a < b
  · rw [if_pos hab, Nat.div_eq_of_lt hab]
    have : ¬ ((2 ^ 54 - 1) * b ≤ 2 ^ 54 * a) := by
      norm_num at hb' ha ⊢
      omega
    rw [if_neg this]
  · rw [if_neg hab]
    have ht : 0 < a / b := Nat.div_pos (by omega) hb
    have hk1 : 2 ^ floorLog2 (a / b) ≤ a / b := floorLog2_le _ ht
    have htb : a / b * b ≤ a := Nat.div_mul_le_self a b
    have hk : floorLog2 (a / b) ≤ 52 := by
      have h1 : 2 ^ floorLog2 (a / b) < 2 ^ 53 := by
        have : a / b ≤ a := Nat.div_le_self a b
        omega
      have := (Nat.pow_lt_pow_iff_right (by decide : 1 < 2)).mp h1
      omega
    simp only [hk, if_true]
    generalize hkdef : floorLog2 (a / b) = k at hk hk1
    have hP : 0 < 2 ^ (52 - k) := Nat.pow_pos (by decide)
    have hpow : 2 ^ k * 2 ^ (52 - k) = 2 ^ 52 := by
      rw [← Nat.pow_add]
      congr 1
      omega
    generalize hPdef : 2 ^ (52 - k) = P at hP hpow
    have hbP : b < 2 * P := by
      have h1 : 2 ^ k * b ≤ a := le_trans (Nat.mul_le_mul_right b hk1) htb
      have h2 : 2 ^ k * b < 2 ^ k * (2 * P) := by
        have : 2 ^ k * (2 * P) = 2 ^ 53 := by
          rw [Nat.mul_left_comm, hpow]
          norm_num
        omega
      exact Nat.lt_of_mul_lt_mul_left h2
    have h0 : a * P / b / P = a / b := by
      rw [Nat.div_div_eq_div_mul, Nat.mul_div_mul_right _ _ hP]
    have hdm : b * (a * P / b) + a * P % b = a * P := Nat.div_add_mod (a * P) b
    have hr : a * P % b < b := Nat.mod_lt _ hb
    have hdm2 : b * (a / b) + a % b = a := Nat.div_add_mod a b
    have hrho : a % b < b := Nat.mod_lt _ hb
    split_ifs with hc
    · have hc' : b ≤ 2 * (a * P % b) := by
        rcases hc with h | h
        · omega
        · omega
      apply Nat.div_eq_of_lt_le
      · have : a / b * P ≤ a * P / b := by
          have := Nat.div_mul_le_self (a * P / b) P
          rw [h0] at this
          exact this
        omega
      · by_contra hcon
        have hcon' : (a / b + 1) * P ≤ a * P / b + 1 := by
          exact Nat.le_of_not_lt hcon
        generalize a * P / b = m0 at hdm hcon' h0
        generalize a * P % b = r at hdm hr hc'
        generalize a / b = t at hdm2 hcon' h0 ht hk1 htb
        generalize a % b = ρ at hdm2 hrho
        have e1 : b * ((t + 1) * P) ≤ b * (m0 + 1) := Nat.mul_le_mul_left b hcon'
        have e2 : ρ * P + P ≤ b * P := by
          have : (ρ + 1) * P ≤ b * P := Nat.mul_le_mul_right P (by omega)
          linarith
        have e3 : a * P = b * t * P + ρ * P := by
          rw [← hdm2]
          ring
        nlinarith
    · exact h0

theorem jsFloorDiv_lt (a b : Nat) (hb : 2 ≤ b) (ha : 0 < a) : jsFloorDiv a b < a := by
  unfold jsFloorDiv
  rw [if_neg (by omega : ¬ b = 0)]
  by_cases hab : a < b
  · rw [if_pos hab]
    split_ifs with hc
    · norm_num at hc
      omega
    · exact ha
  · rw [if_neg hab]
    have ht : 0 < a / b := Nat.div_pos (by omega) (by omega)
    have hk1 : 2 ^ floorLog2 (a / b) ≤ a / b := floorLog2_le _ ht
    have htb : a / b * b ≤ a := Nat.div_mul_le_self a b
    generalize floorLog2 (a / b) = k at hk1
    by_cases hk : k ≤ 52
    · simp only [hk, if_true]
      have hP : 0 < 2 ^ (52 - k) := Nat.pow_pos (by decide)
      generalize 2 ^ (52 - k) = P at hP
      have hdm : b * (a * P / b) + a * P % b = a * P := Nat.div_add_mod (a * P) b
      have haP : 2 ≤ a * P := by nlinarith
      rw [Nat.div_lt_iff_lt_mul hP]
      generalize a * P / b = m0 at hdm
      generalize a * P % b = r at hdm
      have hm0 : 2 * m0 ≤ b * m0 := Nat.mul_le_mul_right m0 hb
      split_ifs with hc
      · have hr : 1 ≤ r := by
          rcases hc with h | h <;> omega
        omega
      · omega
    · simp only [hk, if_false]
      have hQ : 0 < 2 ^ (k - 52) := Nat.pow_pos (by decide)
      have hpow : 2 ^ 52 * 2 ^ (k - 52) = 2 ^ k := by
        rw [← Nat.pow_add]
        congr 1
        omega
      generalize 2 ^ (k - 52) = Q at hQ hpow
      have hD : 2 ^ 52 * (b * Q) ≤ a := by
        have h1 : 2 ^ k * b ≤ a := le_trans (Nat.mul_le_mul_right b hk1) htb
        calc 2 ^ 52 * (b * Q) = 2 ^ 52 * Q * b := by ring
          _ = 2 ^ k * b := by rw [hpow]
          _ ≤ a := h1
      have hdm : b * Q * (a / (b * Q)) + a % (b * Q) = a := Nat.div_add_mod a (b * Q)
      generalize a / (b * Q) = m0 at hdm
      generalize a % (b * Q) = r at hdm
      have hm : (if b * Q < 2 * r ∨ 2 * r = b * Q ∧ m0 % 2 = 1 then m0 + 1 else m0) ≤ m0 + 1 := by
        split_ifs <;> omega
      have h2 : (if b * Q < 2 * r ∨ 2 * r = b * Q ∧ m0 % 2 = 1 then m0 + 1 else m0) * Q
          ≤ (m0 + 1) * Q := Nat.mul_le_mul_right Q hm
      have h3 : 2 * ((m0 + 1) * Q) ≤ b * ((m0 + 1) * Q) := Nat.mul_le_mul_right _ hb
      have h4 : b * ((m0 + 1) * Q) = b * Q * m0 + b * Q := by ring
      have h5 : b * Q < 2 ^ 52 * (b * Q) := by
        have : 0 < b * Q := Nat.mul_pos (by omega) hQ
        norm_num
        omega
      omega

theorem jsFloorDiv_pos (a b : Nat) (hb : 0 < b) (hab : b ≤ a) : 0 < jsFloorDiv a b := by
  unfold jsFloorDiv
  rw [if_neg (by omega : ¬ b = 0), if_neg (by omega : ¬ a < b)]
  have ht : 0 < a / b := Nat.div_pos hab hb
  have hk1 : 2 ^ floorLog2 (a / b) ≤ a / b := floorLog2_le _ ht
  have htb : a / b * b ≤ a := Nat.div_mul_le_self a b
  generalize floorLog2 (a / b) = k at hk1
  by_cases hk : k ≤ 52
  · simp only [hk, if_true]
    have hP : 0 < 2 ^ (52 - k) := Nat.pow_pos (by decide)
    generalize 2 ^ (52 - k) = P at hP
    have hm0 : P ≤ a * P / b := by
      rw [Nat.le_div_iff_mul_le hb]
      calc P * b = b * P := Nat.mul_comm _ _
        _ ≤ a * P := Nat.mul_le_mul_right P hab
    apply Nat.div_pos _ hP
    split_ifs <;> omega
  · simp only [hk, if_false]
    have hQ : 0 < 2 ^ (k - 52) := Nat.pow_pos (by decide)
    have hpow : 2 ^ 52 * 2 ^ (k - 52) = 2 ^ k := by
      rw [← Nat.pow_add]
      congr 1
      omega
    generalize 2 ^ (k - 52) = Q at hQ hpow
    have hD : b * Q ≤ a := by
      have h1 : 2 ^ k * b ≤ a := le_trans (Nat.mul_le_mul_right b hk1) htb
      have h2 : b * Q ≤ 2 ^ 52 * Q * b := by
        have : 1 * (b * Q) ≤ 2 ^ 52 * (b * Q) := Nat.mul_le_mul_right _ (by norm_num)
        calc b * Q = 1 * (b * Q) := (Nat.one_mul _).symm
          _ ≤ 2 ^ 52 * (b * Q) := this
          _ = 2 ^ 52 * Q * b := by ring
      rw [hpow] at h2
      omega
    have hm0 : 1 ≤ a / (b * Q) := by
      rw [Nat.le_div_iff_mul_le (Nat.mul_pos hb hQ)]
      omega
    apply Nat.mul_pos _ hQ
    split_ifs <;> omega

theorem baseLoop_exact (A : List Char) (hA : 2 ≤ A.length) (hA' : A.length < 2 ^ 53) :
    ∀ (fuel num : Nat) (hash : List Char), num < fuel → num < 2 ^ 53 →
      baseLoop A fuel num hash = .ok (reprOf A num ++ hash) := by
  intro fuel
  induction fuel with
  | zero => intro num hash h; omega
  | succ fuel ih =>
    intro num hash h hnum
    have hmod : num % A.length < A.length := Nat.mod_lt _ (by omega)
    simp only [baseLoop]
    rw [jsFloorDiv_eq_div num A.length (by omega) hA' hnum]
    have hle : num / A.length ≤ num := Nat.div_le_self _ _
    by_cases hq : num / A.length > 0
    · have hlt : num / A.length < fuel := by
        have : num / A.length < num := Nat.div_lt_self (by
          rcases Nat.eq_zero_or_pos num with h0 | h0
          · subst h0; simp at hq
          · exact h0) (by omega)
        omega
      rw [if_pos hq, ih _ _ hlt (by omega), jsAt_of_lt A _ hmod]
      simp [reprOf, beDigits_step A.length num hA hq]
    · have hsmall : num < A.length := by
        have h0 : num / A.length = 0 := Nat.eq_zero_of_not_pos hq
        rcases (Nat.div_eq_zero_iff (by omega : 0 < A.length)).mp h0 with h1
        exact h1
      rw [if_neg hq, jsAt_of_lt A _ hmod, Nat.mod_eq_of_lt hsmall]
      simp [reprOf, beDigits_small A.length num hsmall]

theorem baseLoop_total (A : List Char) (hA : 2 ≤ A.length) :
    ∀ num : Nat, ∃ u : List Char, 0 < u.length ∧ (∀ c ∈ u, c ∈ A) ∧
      ∀ (fuel : Nat) (hash : List Char), num < fuel →
        baseLoop A fuel num hash = .ok (u ++ hash) := by
  intro num
  induction num using Nat.strong_induction_on with
  | _ num ih =>
    have hmod : num % A.length < A.length := Nat.mod_lt _ (by omega)
    have hmem : digitChar A (num % A.length) ∈ A := by
      simp only [digitChar, List.getD_eq_getElem?_getD, List.getElem?_eq_getElem hmod,
        Option.getD_some]
      exact List.getElem_mem hmod
    by_cases hq : jsFloorDiv num A.length > 0
    · have hpos : 0 < num := by
        rcases Nat.eq_zero_or_pos num with h0 | h0
        · rw [h0, jsFloorDiv_zero] at hq
          omega
        · exact h0
      have hlt := jsFloorDiv_lt num A.length hA hpos
      obtain ⟨u, hu1, hu2, hu3⟩ := ih _ hlt
      refine ⟨u ++ [digitChar A (num % A.length)], by simp, ?_, ?_⟩
      · intro c hc
        rcases List.mem_append.mp hc with h | h
        · exact hu2 c h
        · rw [List.mem_singleton.mp h]
          exact hmem
      · intro fuel hash hf
        obtain ⟨f, rfl⟩ : ∃ f, fuel = f + 1 := ⟨fuel - 1, by omega⟩
        simp only [baseLoop]
        rw [if_pos hq, hu3 f _ (by omega), jsAt_of_lt A _ hmod]
        simp
    · refine ⟨[digitChar A (num % A.length)], by simp, ?_, ?_⟩
      · intro c hc
        rw [List.mem_singleton.mp hc]
        exact hmem
      · intro fuel hash hf
        obtain ⟨f, rfl⟩ : ∃ f, fuel = f + 1 := ⟨fuel - 1, by omega⟩
        simp only [baseLoop]
        rw [if_neg hq, jsAt_of_lt A _ hmod]

theorem reprJS_spec (A : List Char) (hA : 2 ≤ A.length) (num : Nat) :
    0 < (reprJS A num).length ∧ (∀ c ∈ reprJS A num, c ∈ A) ∧
      ∀ (fuel : Nat) (hash : List Char), num < fuel →
        baseLoop A fuel num hash = .ok (reprJS A num ++ hash) := by
  obtain ⟨u, hu1, hu2, hu3⟩ := baseLoop_total A hA num
  have h : reprJS A num = u := by
    unfold reprJS
    rw [hu3 (num + 1) [] (by omega)]
    simp
  rw [h]
  exact ⟨hu1, hu2, hu3⟩

theorem baseLoop_eq (A : List Char) (hA : 2 ≤ A.length) :
    ∀ (fuel num : Nat) (hash : List Char), num < fuel →
      baseLoop A fuel num hash = .ok (reprJS A num ++ hash) :=
  fun fuel num hash h => (reprJS_spec A hA num).2.2 fuel hash h

theorem reprJS_length_pos (A : List Char) (hA : 2 ≤ A.length) (n : Nat) :
    0 < (reprJS A n).length := (reprJS_spec A hA n).1

theorem reprJS_mem (A : List Char) (hA : 2 ≤ A.length) (n : Nat) :
    ∀ c ∈ reprJS A n, c ∈ A := (reprJS_spec A hA n).2.1

theorem reprJS_eq_reprOf (A : List Char) (hA : 2 ≤ A.length) (hA' : A.length < 2 ^ 53)
    (n : Nat) (hn : n < 2 ^ 53) : reprJS A n = reprOf A n := by
  have h1 := baseLoop_exact A hA hA' (n + 1) n [] (by omega) hn
  have h2 := baseLoop_eq A hA (n + 1) n [] (by omega)
  rw [h1] at h2
  injection h2 with h2
  simpa using h2.symm

theorem baseLoop_head (A : List Char) (hA : 2 ≤ A.length) :
    ∀ num : Nat, 0 < num →
      ∃ d cs, reprJS A num = digitChar A d :: cs ∧ 0 < d ∧ d < A.length := by
  intro num
  induction num using Nat.strong_induction_on with
  | _ num ih =>
    intro hpos
    have hmod : num % A.length < A.length := Nat.mod_lt _ (by omega)
    have hspec := (reprJS_spec A hA num).2.2 (num + 1) [] (by omega)
    simp only [baseLoop, List.append_nil] at hspec
    rw [jsAt_of_lt A _ hmod] at hspec
    by_cases hq : jsFloorDiv num A.length > 0
    · have hlt := jsFloorDiv_lt num A.length hA hpos
      obtain ⟨d, cs, hd, hd0, hdlt⟩ := ih _ hlt hq
      rw [if_pos hq, baseLoop_eq A hA num _ _ (by omega)] at hspec
      injection hspec with hspec
      refine ⟨d, cs ++ [digitChar A (num % A.length)], ?_, hd0, hdlt⟩
      rw [← hspec, hd]
      simp
    · rw [if_neg hq] at hspec
      injection hspec with hspec
      have hsmall : num < A.length := by
        by_contra hge
        exact hq (jsFloorDiv_pos num A.length (by omega) (by omega))
      refine ⟨num % A.length, [], ?_, ?_, hmod⟩
      · rw [← hspec]
      · rw [Nat.mod_eq_of_lt hsmall]
        exact hpos

theorem padLoop_eq (A : List Char) (hA : 2 ≤ A.length) (L : Nat) :
    ∀ (fuel : Nat) (hash : List Char), hash.length ≤ L → L ≤ fuel + hash.length →
      padLoop A (L : Int) fuel hash = .ok (padPrefix A hash.length L ++ hash) := by
  intro fuel
  induction fuel with
  | zero =>
    intro hash h1 h2
    have : hash.length = L := by omega
    simp [padLoop, padPrefix, this]
  | succ fuel ih =>
    intro hash h1 h2
    simp only [padLoop]
    by_cases hlt : hash.length < L
    · have hidx : saltIndex A hash < A.length := Nat.mod_lt _ (by omega)
      have hc : ((hash.length : Int) < (L : Int)) := by exact_mod_cast hlt
      rw [if_pos hc, jsAt_of_lt A _ hidx, ih _ (by simp; omega) (by simp; omega)]
      have hL : L - hash.length = (L - (hash.length + 1)) + 1 := by omega
      simp only [padPrefix, List.singleton_append, List.length_cons]
      rw [hL, List.range'_succ]
      simp [saltChar, saltIndex]
    · have hc : ¬ ((hash.length : Int) < (L : Int)) := by
        intro h
        exact hlt (by exact_mod_cast h)
      have : hash.length = L := by omega
      rw [if_neg hc]
      simp [padPrefix, this]

theorem padLoop_of_ge (A : List Char) (L : Nat) (fuel : Nat) (hash : List Char)
    (h : L ≤ hash.length) : padLoop A (L : Int) fuel hash = .ok hash := by
  have hc : ¬ ((hash.length : Int) < (L : Int)) := by
    intro h'
    have : hash.length < L := by exact_mod_cast h'
    omega
  cases fuel <;> simp [padLoop, hc]

theorem padPrefix_length (A : List Char) (k L : Nat) : (padPrefix A k L).length = L - k := by
  simp [padPrefix]

/-- Closed form of the encoding: the padded representation when it fits, its leading
characters otherwise. -/
theorem encodeHashID_eq (A : List Char) (hA : 2 ≤ A.length) (L fuel n : Nat)
    (hfuel : n + L < fuel) :
    encodeHashID A (L : Int) fuel n =
      .ok (if (reprJS A n).length ≤ L then padPrefix A (reprJS A n).length L ++ reprJS A n
        else (reprJS A n).take L) := by
  unfold encodeHashID
  rw [baseLoop_eq A hA fuel n [] (by omega)]
  simp only [List.append_nil]
  by_cases hk : (reprJS A n).length ≤ L
  · rw [padLoop_eq A hA L fuel _ hk (by omega)]
    have hlen : (padPrefix A (reprJS A n).length L ++ reprJS A n).length = L := by
      simp [padPrefix_length]; omega
    simp [hk, hlen]
  · rw [padLoop_of_ge A L fuel _ (by omega)]
    have hc : ((reprJS A n).length : Int) > (L : Int) := by
      have : L < (reprJS A n).length := by omega
      exact_mod_cast this
    simp [hk, hc, substring0]

theorem hashAlphabet_length_ge (cfg : CharConfig) : 2 ≤ (hashAlphabet cfg).length := by
  rcases cfg with ⟨_ | _, _ | _, _ | _, _ | _⟩ <;> decide

theorem hashAlphabet_nodup (cfg : CharConfig) : (hashAlphabet cfg).Nodup := by
  rcases cfg with ⟨_ | _, _ | _, _ | _, _ | _⟩ <;> decide

theorem hashAlphabet_length_lt (cfg : CharConfig) : (hashAlphabet cfg).length < 2 ^ 53 := by
  rcases cfg with ⟨_ | _, _ | _, _ | _, _ | _⟩ <;> decide

theorem baseConvert_eq (A : List Char) (hA : 2 ≤ A.length) (fuel n : Nat) (h : n < fuel) :
    baseConvert A fuel n = .ok (reprJS A n) := by
  unfold baseConvert
  rw [baseLoop_eq A hA fuel n [] h]
  simp

theorem orDefault_pos (L : Nat) (hL : 1 ≤ L) (d : Int) : orDefault (some (L : Int)) d = L := by
  have : (L : Int) ≠ 0 := by omega
  simp [orDefault, this]

theorem generateHashID_eq (cfg : CharConfig) (L fuel n : Nat) (hL : 1 ≤ L)
    (hfuel : n + L < fuel) :
    generateHashID cfg (some (L : Int)) fuel n =
      .ok (if (reprJS (hashAlphabet cfg) n).length ≤ L then
          padPrefix (hashAlphabet cfg) (reprJS (hashAlphabet cfg) n).length L ++
            reprJS (hashAlphabet cfg) n
        else (reprJS (hashAlphabet cfg) n).take L) := by
  unfold generateHashID
  rw [orDefault_pos L hL, encodeHashID_eq _ (hashAlphabet_length_ge cfg) L fuel n hfuel]

theorem digitValue_digitChar : ∀ (A : List Char), A.Nodup → ∀ d, d < A.length →
    digitValue A (digitChar A d) = some d := by
  intro A
  induction A with
  | nil => intro _ d h; simp at h
  | cons a rest ih =>
    intro hnd d h
    cases d with
    | zero => simp [digitValue, digitChar]
    | succ d =>
      have hd : d < rest.length := by simpa using h
      have hmem : rest[d] ∈ rest := List.getElem_mem hd
      have hne : rest[d] ≠ a := by
        intro h'
        rw [h'] at hmem
        exact (List.nodup_cons.mp hnd).1 hmem
      have ih' := ih (List.nodup_cons.mp hnd).2 d hd
      simp only [digitChar, List.getD_eq_getElem?_getD, List.getElem?_eq_getElem hd,
        Option.getD_some] at ih'
      simp [digitValue, digitChar, List.getElem?_eq_getElem hd, hne, ih']

theorem decode_map_digitChar (A : List Char) (hnd : A.Nodup) :
    ∀ ds : List Nat, (∀ d ∈ ds, d < A.length) →
      decode (ds.map (digitChar A)) A = some (Nat.ofDigits A.length ds.reverse) := by
  intro ds
  induction ds with
  | nil => intro _; simp [decode]
  | cons d ds ih =>
    intro h
    have h1 : d < A.length := h d (by simp)
    have h2 := ih (fun x hx => h x (by simp [hx]))
    simp only [List.map_cons, decode, digitValue_digitChar A hnd d h1, h2, List.length_map,
      List.reverse_cons, Nat.ofDigits_append, Nat.ofDigits_singleton, List.length_reverse]
    congr 1
    ring

theorem beDigits_lt (b n : Nat) (hb : 2 ≤ b) : ∀ d ∈ beDigits b n, d < b := by
  intro d hd
  unfold beDigits at hd
  split at hd
  · simp at hd
    omega
  · exact Nat.digits_lt_base (by omega) (List.mem_reverse.mp hd)

theorem ofDigits_beDigits (b n : Nat) : Nat.ofDigits b (beDigits b n).reverse = n := by
  unfold beDigits
  split
  · subst_vars
    simp
  · simp [Nat.ofDigits_digits]

theorem decode_reprOf (A : List Char) (hA : 2 ≤ A.length) (hnd : A.Nodup) (n : Nat) :
    decode (reprOf A n) A = some n := by
  unfold reprOf
  rw [decode_map_digitChar A hnd _ (beDigits_lt _ n hA), ofDigits_beDigits]

theorem beDigits_length_le_iff (b n k : Nat) (hb : 2 ≤ b) (hn : 0 < n) :
    (beDigits b n).length ≤ k ↔ n < b ^ k := by
  have hn' : n ≠ 0 := by omega
  simp only [beDigits, hn', if_false, List.length_reverse]
  rw [Nat.digits_len b n (by omega) hn', Nat.lt_pow_iff_log_lt (by omega) hn']
  omega

theorem beDigits_head_ne_zero (b n : Nat) (hn : 0 < n) :
    ∃ d ds, beDigits b n = d :: ds ∧ d ≠ 0 := by
  have hn' : n ≠ 0 := by omega
  have hne : Nat.digits b n ≠ [] := Nat.digits_ne_nil_iff_ne_zero.mpr hn'
  have hlast := Nat.getLast_digit_ne_zero b hn'
  simp only [beDigits, hn', if_false]
  rcases hrev : (Nat.digits b n).reverse with _ | ⟨d, ds⟩
  · simp at hrev
    exact absurd hrev hne
  · refine ⟨d, ds, rfl, ?_⟩
    have hd : (Nat.digits b n) = ds.reverse ++ [d] := by
      have := congrArg List.reverse hrev
      simpa using this
    simp only [hd] at hlast
    simpa using hlast

theorem digitChar_injective (A : List Char) (hnd : A.Nodup) (i j : Nat) (hi : i < A.length)
    (hj : j < A.length) (h : digitChar A i = digitChar A j) : i = j := by
  have h1 := digitValue_digitChar A hnd i hi
  have h2 := digitValue_digitChar A hnd j hj
  rw [h] at h1
  rw [h1] at h2
  exact Option.some.inj h2

theorem padPrefix_getElem? (A : List Char) (k L j : Nat) (hk : k ≤ j) (hj : j < L) :
    (padPrefix A k L)[L - 1 - j]? = some (saltChar A j) := by
  unfold padPrefix
  rw [List.getElem?_map, List.getElem?_reverse (by simp; omega)]
  have h1 : (List.range' k (L - k)).length - 1 - (L - 1 - j) = j - k := by
    simp
    omega
  rw [h1, List.getElem?_range' k 1 (by omega : j - k < L - k)]
  simp only [Option.map_some', Nat.one_mul]
  congr 2
  omega

/-! ## Claims on `generateHashID` -/

/-- C3: for every non-negative integer `n`, every character-class configuration and every
desired length `L ≥ 1`, `generateHashID` returns (given enough fuel for its loops) a string of
length exactly `L`. -/
theorem generateHashID_length (cfg : CharConfig) (L fuel n : Nat) (hL : 1 ≤ L)
    (hfuel : n + L < fuel) :
    ∃ s, generateHashID cfg (some (L : Int)) fuel n = .ok s ∧ s.length = L := by
  rw [generateHashID_eq cfg L fuel n hL hfuel]
  refine ⟨_, rfl, ?_⟩
  split
  · rw [List.length_append, padPrefix_length]
    omega
  · rw [List.length_take]
    omega

theorem generateHashID_length_witness :
    1 ≤ 6 ∧ 123 + 6 < 200 ∧
      ∃ s, generateHashID ⟨false, true, true, false⟩ (some ((6 : Nat) : Int)) 200 123 = .ok s ∧
        s.length = 6 :=
  ⟨by decide, by decide, generateHashID_length _ 6 200 123 (by decide) (by decide)⟩

/-- C7 (as stated, refuted): for `n = 1189`, the default alphabet and desired length `1` the
unpadded representation is `7b`, longer than `1`; `generateHashID` returns `7`, not the trailing
character `b`. -/
theorem truncation_keeps_tail_counterexample :
    baseConvert (hashAlphabet ⟨false, false, false, false⟩) 2000 1189 = .ok ['7', 'b'] ∧
      generateHashID ⟨false, false, false, false⟩ (some 1) 2000 1189 = .ok ['7'] ∧
      (['7', 'b'] : List Char).drop (2 - 1) = ['b'] ∧
      generateHashID ⟨false, false, false, false⟩ (some 1) 2000 1189 ≠
        .ok ((['7', 'b'] : List Char).drop (2 - 1)) := by
  refine ⟨rfl, rfl, rfl, ?_⟩
  intro h
  have h2 : generateHashID ⟨false, false, false, false⟩ (some 1) 2000 1189 = .ok ['7'] := rfl
  rw [h2] at h
  injection h with h
  exact absurd h (by decide)

/-- C7 (amended): for every `n` whose unpadded representation `u` is longer than the desired
length `L ≥ 1`, `generateHashID` returns exactly the leading `L` characters of `u` (the trailing
characters are dropped). -/
theorem truncation_keeps_head (cfg : CharConfig) (L fuel n : Nat) (u : List Char)
    (hL : 1 ≤ L) (hfuel : n + L < fuel)
    (hu : baseConvert (hashAlphabet cfg) fuel n = .ok u) (hlen : L < u.length) :
    generateHashID cfg (some (L : Int)) fuel n = .ok (u.take L) := by
  rw [baseConvert_eq _ (hashAlphabet_length_ge cfg) fuel n (by omega)] at hu
  have hu' : reprJS (hashAlphabet cfg) n = u := by
    injection hu
  rw [generateHashID_eq cfg L fuel n hL hfuel, hu']
  have : ¬ u.length ≤ L := by omega
  simp [this]

theorem truncation_keeps_head_witness :
    1 ≤ 1 ∧ 1189 + 1 < 2000 ∧
      baseConvert (hashAlphabet ⟨false, false, false, false⟩) 2000 1189 = .ok ['7', 'b'] ∧
      1 < (['7', 'b'] : List Char).length ∧
      generateHashID ⟨false, false, false, false⟩ (some ((1 : Nat) : Int)) 2000 1189 =
        .ok ((['7', 'b'] : List Char).take 1) :=
  ⟨by decide, by decide, rfl, by decide,
    truncation_keeps_head _ 1 2000 1189 ['7', 'b'] (by decide) (by decide) rfl (by decide)⟩

/-- C8 (as stated, refuted): for `n = 2 ^ 60` (a number a double holds exactly), lowercase
letters and digits enabled and desired length `12`, the loop's division
`Math.floor(num / 36)` is inexact: the unpadded representation is `i1meuln522a2` (length `12`),
`generateHashID` returns it unchanged, and its standard base-conversion decode is
`1152921504606846940`, not `2 ^ 60 = 1152921504606846976`. -/
theorem roundtrip_without_padding_counterexample :
    baseConvert (hashAlphabet ⟨false, true, true, false⟩) 100 (2 ^ 60) =
        .ok "i1meuln522a2".toList ∧
      "i1meuln522a2".toList.length = 12 ∧
      generateHashID ⟨false, true, true, false⟩ (some 12) 100 (2 ^ 60) =
        .ok "i1meuln522a2".toList ∧
      decode "i1meuln522a2".toList (hashAlphabet ⟨false, true, true, false⟩) =
        some 1152921504606846940 ∧
      decode "i1meuln522a2".toList (hashAlphabet ⟨false, true, true, false⟩) ≠
        some (2 ^ 60) := by
  refine ⟨rfl, rfl, rfl, by decide, by decide⟩

/-- C8 (amended): for every non-negative integer `n` below `2 ^ 53` (where the arithmetic of
the code is exact), when the desired length equals the length of the unpadded representation
`u` of `n`, `generateHashID` returns `u` unchanged, and the standard base-conversion decode of
the result is `n`. -/
theorem roundtrip_without_padding (cfg : CharConfig) (fuel n : Nat) (u : List Char)
    (hn : n < 2 ^ 53) (hfuel : n + u.length < fuel)
    (hu : baseConvert (hashAlphabet cfg) fuel n = .ok u) :
    generateHashID cfg (some (u.length : Int)) fuel n = .ok u ∧
      decode u (hashAlphabet cfg) = some n := by
  have hA := hashAlphabet_length_ge cfg
  rw [baseConvert_eq _ hA fuel n (by omega)] at hu
  have hu' : reprJS (hashAlphabet cfg) n = u := by
    injection hu
  have hrepr := reprJS_eq_reprOf _ hA (hashAlphabet_length_lt cfg) n hn
  have hpos : 1 ≤ u.length := by
    rw [← hu']
    exact reprJS_length_pos _ hA _
  constructor
  · rw [generateHashID_eq cfg u.length fuel n hpos hfuel, hu']
    simp [padPrefix]
  · rw [← hu', hrepr]
    exact decode_reprOf _ hA (hashAlphabet_nodup cfg) n

theorem roundtrip_without_padding_witness :
    123 < 2 ^ 53 ∧ 123 + (['d', 'p'] : List Char).length < 200 ∧
      baseConvert (hashAlphabet ⟨false, true, true, false⟩) 200 123 = .ok ['d', 'p'] ∧
      generateHashID ⟨false, true, true, false⟩
        (some ((['d', 'p'] : List Char).length : Int)) 200 123 = .ok ['d', 'p'] ∧
      decode ['d', 'p'] (hashAlphabet ⟨false, true, true, false⟩) = some 123 :=
  ⟨by decide, by decide, rfl,
    roundtrip_without_padding ⟨false, true, true, false⟩ 200 123 ['d', 'p'] (by decide)
      (by decide) rfl⟩

/-- C9 (as stated, refuted): for `n = 99999999999999991611392` (the double written `1e23`)
and only the digit class enabled, the loop's division `Math.floor(num / 10)` rounds up to
`10 ^ 22`: the base-conversion step yields the 24 characters `100000000000000000000002`, while
`10 ^ 23 > n`, so the length is not the least `k` with `|alphabet| ^ k > n`. -/
theorem baseConvert_minimal_counterexample :
    hashAlphabet ⟨false, false, true, false⟩ = "0123456789".toList ∧
      baseConvert (hashAlphabet ⟨false, false, true, false⟩) 100 99999999999999991611392 =
        .ok "100000000000000000000002".toList ∧
      "100000000000000000000002".toList.length = 24 ∧
      99999999999999991611392 < (hashAlphabet ⟨false, false, true, false⟩).length ^ 23 ∧
      ¬ ("100000000000000000000002".toList.length ≤ 23) := by
  refine ⟨rfl, rfl, rfl, by decide, by decide⟩

/-- C9 (amended): the base-conversion step yields a positional representation: the alphabet
has at least two characters; for `n = 0` the result is the one character `alphabet[0]`; for
every `n > 0` its first character is not `alphabet[0]`; and for every `n > 0` below `2 ^ 53`
(where the arithmetic of the code is exact) its length is the least `k` with
`|alphabet| ^ k > n`. -/
theorem baseConvert_minimal (cfg : CharConfig) (fuel n : Nat) (hfuel : n < fuel) :
    2 ≤ (hashAlphabet cfg).length ∧
      ∃ u c0, baseConvert (hashAlphabet cfg) fuel n = .ok u ∧
        (hashAlphabet cfg)[0]? = some c0 ∧
        (n = 0 → u = [c0]) ∧
        (0 < n → ∃ c cs, u = c :: cs ∧ c ≠ c0) ∧
        (0 < n → n < 2 ^ 53 →
          n < (hashAlphabet cfg).length ^ u.length ∧
          ∀ k, n < (hashAlphabet cfg).length ^ k → u.length ≤ k) := by
  have hA := hashAlphabet_length_ge cfg
  have hA' := hashAlphabet_length_lt cfg
  refine ⟨hA, reprJS (hashAlphabet cfg) n, digitChar (hashAlphabet cfg) 0,
    baseConvert_eq _ hA fuel n hfuel, ?_, ?_, ?_, ?_⟩
  · simp [digitChar, List.getElem?_eq_getElem (by omega : 0 < (hashAlphabet cfg).length)]
  · intro h0
    subst h0
    rw [reprJS_eq_reprOf _ hA hA' 0 (by norm_num)]
    simp [reprOf, beDigits]
  · intro hn
    obtain ⟨d, cs, hd, hd0, hdlt⟩ := baseLoop_head _ hA n hn
    refine ⟨digitChar (hashAlphabet cfg) d, cs, hd, ?_⟩
    intro heq
    have := digitChar_injective _ (hashAlphabet_nodup cfg) d 0 hdlt (by omega) heq
    omega
  · intro hn hn53
    rw [reprJS_eq_reprOf _ hA hA' n hn53]
    refine ⟨?_, ?_⟩
    · rw [reprOf_length]
      exact (beDigits_length_le_iff _ n _ hA hn).mp (le_refl _)
    · intro k hk
      rw [reprOf_length]
      exact (beDigits_length_le_iff _ n k hA hn).mpr hk

theorem baseConvert_minimal_witness :
    123 < 200 ∧ 0 < 123 ∧ 123 < 2 ^ 53 ∧
      baseConvert (hashAlphabet ⟨false, true, true, false⟩) 200 123 = .ok "dp".toList ∧
      2 ≤ (hashAlphabet ⟨false, true, true, false⟩).length ∧
      ∃ u c0, baseConvert (hashAlphabet ⟨false, true, true, false⟩) 200 123 = .ok u ∧
        (hashAlphabet ⟨false, true, true, false⟩)[0]? = some c0 ∧
        (123 = 0 → u = [c0]) ∧
        (0 < 123 → ∃ c cs, u = c :: cs ∧ c ≠ c0) ∧
        (0 < 123 → 123 < 2 ^ 53 →
          123 < (hashAlphabet ⟨false, true, true, false⟩).length ^ u.length ∧
          ∀ k, 123 < (hashAlphabet ⟨false, true, true, false⟩).length ^ k → u.length ≤ k) :=
  ⟨by decide, by decide, by decide, rfl,
    baseConvert_minimal ⟨false, true, true, false⟩ 200 123 (by decide)⟩

/-- C10: padding is a closed-form function of position only: when the unpadded representation
`u` of `n` has length `k < L`, the result has length `L`, its last `k` characters are `u`, and
for every `j` with `k ≤ j < L` the character at index `L - 1 - j` is
`alphabet[(j + charCode(salt[j mod |salt|])) mod |alphabet|]`; hence every integer `m` with an
unpadded representation of the same length `k` gets the same padding prefix. -/
theorem padding_closed_form (cfg : CharConfig) (L fuel n : Nat) (u : List Char)
    (hfuel : n + L < fuel)
    (hu : baseConvert (hashAlphabet cfg) fuel n = .ok u) (hk : u.length < L) :
    ∃ s, generateHashID cfg (some (L : Int)) fuel n = .ok s ∧ s.length = L ∧
      s.drop (L - u.length) = u ∧
      (∀ j, u.length ≤ j → j < L →
        j % salt.length < salt.length ∧
        (j + charCodeAt salt (j % salt.length)) % (hashAlphabet cfg).length
          < (hashAlphabet cfg).length ∧
        s[L - 1 - j]? =
          (hashAlphabet cfg)[(j + charCodeAt salt (j % salt.length)) %
            (hashAlphabet cfg).length]?) ∧
      (∀ (m fuel' : Nat) (v : List Char), m + L < fuel' →
        baseConvert (hashAlphabet cfg) fuel' m = .ok v → v.length = u.length →
        ∃ t, generateHashID cfg (some (L : Int)) fuel' m = .ok t ∧
          t.take (L - u.length) = s.take (L - u.length)) := by
  have hA := hashAlphabet_length_ge cfg
  rw [baseConvert_eq _ hA fuel n (by omega)] at hu
  have hu' : reprJS (hashAlphabet cfg) n = u := by
    injection hu
  have hpos : 0 < u.length := by
    rw [← hu']
    exact reprJS_length_pos _ hA _
  have hL : 1 ≤ L := by omega
  refine ⟨padPrefix (hashAlphabet cfg) u.length L ++ u, ?_, ?_, ?_, ?_, ?_⟩
  · rw [generateHashID_eq cfg L fuel n hL hfuel, hu']
    simp [Nat.le_of_lt hk]
  · rw [List.length_append, padPrefix_length]
    omega
  · rw [List.drop_left' (padPrefix_length _ _ _)]
  · intro j hj1 hj2
    have hidx : (j + charCodeAt salt (j % salt.length)) % (hashAlphabet cfg).length
        < (hashAlphabet cfg).length := Nat.mod_lt _ (by omega)
    refine ⟨Nat.mod_lt _ (by decide), hidx, ?_⟩
    rw [List.getElem?_append_left (by rw [padPrefix_length]; omega),
      padPrefix_getElem? _ _ _ _ hj1 hj2, List.getElem?_eq_getElem hidx]
    simp [saltChar, digitChar, List.getElem?_eq_getElem hidx]
  · intro m fuel' v hfuel' hv hlen
    rw [baseConvert_eq _ hA fuel' m (by omega)] at hv
    have hv' : reprJS (hashAlphabet cfg) m = v := by
      injection hv
    refine ⟨padPrefix (hashAlphabet cfg) u.length L ++ v, ?_, ?_⟩
    · rw [generateHashID_eq cfg L fuel' m hL hfuel', hv', hlen]
      simp [Nat.le_of_lt hk]
    · rw [List.take_left' (padPrefix_length _ _ _), List.take_left' (padPrefix_length _ _ _)]

theorem padding_closed_form_witness :
    123 + 6 < 200 ∧
      baseConvert (hashAlphabet ⟨false, true, true, false⟩) 200 123 = .ok ['d', 'p'] ∧
      (['d', 'p'] : List Char).length < 6 ∧
      ∃ s, generateHashID ⟨false, true, true, false⟩ (some ((6 : Nat) : Int)) 200 123 = .ok s ∧
        s.length = 6 ∧ s.drop (6 - (['d', 'p'] : List Char).length) = ['d', 'p'] :=
  ⟨by decide, rfl, by decide,
    (padding_closed_form ⟨false, true, true, false⟩ 6 200 123 ['d', 'p'] (by decide) rfl
      (by decide)).imp fun _ h => ⟨h.1, h.2.1, h.2.2.1⟩⟩

/-- C1 (evaluation at the failing input): with lowercase letters and digits enabled (the
alphabet `abcdefghijklmnopqrstuvwxyz0123456789`) and desired length `6`, the unpadded
representation of `123` is `dp` (length `2 ≤ 6`), `generateHashID` returns `cak9dp`, and the
standard base-conversion decode of `cak9dp` is `121444395`, not `123`. -/
theorem roundtrip_fails_at_123 :
    hashAlphabet ⟨false, true, true, false⟩ = "abcdefghijklmnopqrstuvwxyz0123456789".toList ∧
      baseConvert (hashAlphabet ⟨false, true, true, false⟩) 200 123 = .ok "dp".toList ∧
      generateHashID ⟨false, true, true, false⟩ (some 6) 200 123 = .ok "cak9dp".toList ∧
      decode "cak9dp".toList (hashAlphabet ⟨false, true, true, false⟩) = some 121444395 ∧
      decode "cak9dp".toList (hashAlphabet ⟨false, true, true, false⟩) ≠ some 123 := by
  refine ⟨rfl, rfl, rfl, by decide, by decide⟩

/-- C6 (evaluation at the failing input): with lowercase letters and digits enabled and desired
length `2`, the distinct integers `1` and `1189` have unpadded representations `b` and `7b`
(both of length at most `2`) and `generateHashID` encodes both to the same string `7b`. -/
theorem encoding_collision_at_1_and_1189 :
    baseConvert (hashAlphabet ⟨false, true, true, false⟩) 2000 1 = .ok "b".toList ∧
      baseConvert (hashAlphabet ⟨false, true, true, false⟩) 2000 1189 = .ok "7b".toList ∧
      generateHashID ⟨false, true, true, false⟩ (some 2) 2000 1 = .ok "7b".toList ∧
      generateHashID ⟨false, true, true, false⟩ (some 2) 2000 1189 = .ok "7b".toList ∧
      generateHashID ⟨false, true, true, false⟩ (some 2) 2000 1 =
        generateHashID ⟨false, true, true, false⟩ (some 2) 2000 1189 := by
  refine ⟨rfl, rfl, rfl, rfl, rfl⟩

/-! ## Lemmas on the random generators -/

theorem Draw.scale_lt (d : Draw) (n : Nat) (hd : d.valid) (hn : 0 < n) : d.scale n < n := by
  unfold Draw.valid at hd
  unfold Draw.scale
  rw [Nat.div_lt_iff_lt_mul (by omega)]
  rw [Nat.mul_comm d.num n]
  exact Nat.mul_lt_mul_of_pos_left hd hn

theorem uuidReplacer_x (d : Draw) (hd : d.valid) :
    ∃ h, uuidReplacer d 'x' = [h] ∧ h ∈ hexChars := by
  have hlt := Draw.scale_lt d 16 hd (by decide)
  unfold uuidReplacer
  generalize d.scale 16 = r at hlt
  interval_cases r <;> exact ⟨_, rfl, by decide⟩

theorem uuidReplacer_y (d : Draw) (hd : d.valid) :
    ∃ h, uuidReplacer d 'y' = [h] ∧ h ∈ ['8', '9', 'a', 'b'] := by
  have hlt := Draw.scale_lt d 16 hd (by decide)
  unfold uuidReplacer
  generalize d.scale 16 = r at hlt
  interval_cases r <;> exact ⟨_, rfl, by decide⟩

theorem replaceXY_forall₂ (rnd : Nat → Draw) (hr : ∀ k, (rnd k).valid) :
    ∀ (t : List Char) (k : Nat), List.Forall₂ uuidCharOK t (replaceXY rnd t k) := by
  intro t
  induction t with
  | nil => intro k; simp [replaceXY]
  | cons c cs ih =>
    intro k
    unfold replaceXY
    by_cases hx : c = 'x'
    · subst hx
      obtain ⟨h, h1, h2⟩ := uuidReplacer_x (rnd k) (hr k)
      simp only [true_or, if_true, h1, List.singleton_append]
      exact List.Forall₂.cons (by simpa [uuidCharOK] using h2) (ih _)
    · by_cases hy : c = 'y'
      · subst hy
        obtain ⟨h, h1, h2⟩ := uuidReplacer_y (rnd k) (hr k)
        simp only [or_true, if_true, h1, List.singleton_append]
        exact List.Forall₂.cons (by simpa [uuidCharOK] using h2) (ih _)
      · simp only [hx, hy, or_self, if_false]
        exact List.Forall₂.cons (by simp [uuidCharOK, hx, hy]) (ih _)

theorem charAt_of_lt (A : List Char) (i : Nat) (h : i < A.length) :
    charAt A i = [digitChar A i] := by
  simp [charAt, digitChar, List.getElem?_eq_getElem h]

theorem digitChar_mem (A : List Char) (i : Nat) (h : i < A.length) : digitChar A i ∈ A := by
  simp only [digitChar, List.getD_eq_getElem?_getD, List.getElem?_eq_getElem h,
    Option.getD_some]
  exact List.getElem_mem h

theorem nanoLoop_spec (A : List Char) (hA : 0 < A.length) (rnd : Nat → Draw)
    (hr : ∀ k, (rnd k).valid) :
    ∀ (steps i : Nat) (result : List Char),
      (nanoLoop A rnd steps i result).length = result.length + steps ∧
        ∀ c ∈ nanoLoop A rnd steps i result, c ∈ result ∨ c ∈ A := by
  intro steps
  induction steps with
  | zero =>
    intro i result
    exact ⟨by simp [nanoLoop], fun c hc => Or.inl (by simpa [nanoLoop] using hc)⟩
  | succ steps ih =>
    intro i result
    have hidx := Draw.scale_lt (rnd i) A.length (hr i) hA
    obtain ⟨h1, h2⟩ := ih (i + 1) (result ++ charAt A ((rnd i).scale A.length))
    simp only [nanoLoop]
    rw [charAt_of_lt A _ hidx] at h1 h2 ⊢
    refine ⟨?_, ?_⟩
    · rw [h1]
      simp
      omega
    · intro c hc
      rcases h2 c hc with h | h
      · rcases List.mem_append.mp h with h | h
        · exact Or.inl h
        · right
          rw [List.mem_singleton.mp h]
          exact digitChar_mem A _ hidx
      · exact Or.inr h

theorem nanoAlphabet_length_pos (cfg : CharConfig) : 0 < (nanoAlphabet cfg).length := by
  rcases cfg with ⟨_ | _, _ | _, _ | _, _ | _⟩ <;> decide

/-! ## Claims on the random generators -/

/-- C5: for every outcome of the random source, `generateUUID` returns a 36-character string
with `-` at exactly the indices 8, 13, 18 and 23, the character `4` at index 14, one of `8`,
`9`, `a`, `b` at index 19, and a lowercase hexadecimal digit at every other index. -/
theorem generateUUID_format (rnd : Nat → Draw) (hr : ∀ k, (rnd k).valid) :
    (generateUUID rnd).length = 36 ∧
      ∀ (i : Nat) (c : Char), (generateUUID rnd)[i]? = some c →
        (c = '-' ↔ i ∈ [8, 13, 18, 23]) ∧
        (i = 14 → c = '4') ∧
        (i = 19 → c ∈ ['8', '9', 'a', 'b']) ∧
        (i ∉ [8, 13, 18, 23] → c ∈ hexChars) := by
  have hall := replaceXY_forall₂ rnd hr uuidTemplate 0
  have hlen : (generateUUID rnd).length = 36 := by
    have := hall.length_eq
    unfold generateUUID
    rw [← this]
    rfl
  refine ⟨hlen, ?_⟩
  intro i c hc
  have hi : i < (generateUUID rnd).length := by
    rcases Nat.lt_or_ge i (generateUUID rnd).length with h | h
    · exact h
    · rw [List.getElem?_eq_none h] at hc
      exact absurd hc (by simp)
  have hi36 : i < 36 := by omega
  have hget : (generateUUID rnd).get ⟨i, hi⟩ = c := by
    rw [List.getElem?_eq_getElem hi] at hc
    exact Option.some.inj hc
  have hrel : uuidCharOK (uuidTemplate.get ⟨i, hi36⟩) ((generateUUID rnd).get ⟨i, hi⟩) :=
    hall.get hi36 hi
  rw [hget] at hrel
  clear hget hc hall hlen hi
  interval_cases i <;> simp [uuidTemplate, uuidCharOK] at hrel <;>
    first
    | (subst hrel; decide)
    | (rcases hrel with h | h | h | h <;> subst h <;> decide)
    | (revert hrel; simp only [hexChars]; intro hrel; simp at hrel;
       rcases hrel with h | h | h | h | h | h | h | h | h | h | h | h | h | h | h | h <;>
         subst h <;> decide)

theorem generateUUID_format_witness :
    (∀ k, ((fun _ => ⟨0, 1⟩ : Nat → Draw) k).valid) ∧
      generateUUID (fun _ => ⟨0, 1⟩) = "00000000-0000-4000-8000-000000000000".toList ∧
      (generateUUID (fun _ => ⟨0, 1⟩)).length = 36 ∧
      ∀ (i : Nat) (c : Char), (generateUUID (fun _ => ⟨0, 1⟩))[i]? = some c →
        (c = '-' ↔ i ∈ [8, 13, 18, 23]) ∧
        (i = 14 → c = '4') ∧
        (i = 19 → c ∈ ['8', '9', 'a', 'b']) ∧
        (i ∉ [8, 13, 18, 23] → c ∈ hexChars) :=
  ⟨fun _ => Nat.zero_lt_one, rfl,
    generateUUID_format (fun _ => ⟨0, 1⟩) (fun _ => Nat.zero_lt_one)⟩

/-- C4: for every character-class configuration, every length `L ≥ 1` and every outcome of the
random source (each draw in `[0, 1)`), `generateNanoID` returns a string of length exactly `L`
whose every character is a member of the resolved alphabet. -/
theorem generateNanoID_length_alphabet (cfg : CharConfig) (L : Nat) (rnd : Nat → Draw)
    (hL : 1 ≤ L) (hr : ∀ k, (rnd k).valid) :
    (generateNanoID cfg (some (L : Int)) rnd).length = L ∧
      ∀ c ∈ generateNanoID cfg (some (L : Int)) rnd, c ∈ nanoAlphabet cfg := by
  unfold generateNanoID
  simp only [orDefault_pos L hL, Int.toNat_ofNat]
  obtain ⟨h1, h2⟩ := nanoLoop_spec (nanoAlphabet cfg) (nanoAlphabet_length_pos cfg) rnd hr L 0 []
  refine ⟨by simpa using h1, ?_⟩
  intro c hc
  rcases h2 c hc with h | h
  · simp at h
  · exact h

theorem generateNanoID_length_alphabet_witness :
    1 ≤ 21 ∧ (∀ k, ((fun _ => ⟨0, 1⟩ : Nat → Draw) k).valid) ∧
      nanoAlphabet ⟨false, true, false, false⟩ = "abcdefghijklmnopqrstuvwxyz".toList ∧
      (generateNanoID ⟨false, true, false, false⟩ (some ((21 : Nat) : Int))
        (fun _ => ⟨0, 1⟩)).length = 21 ∧
      ∀ c ∈ generateNanoID ⟨false, true, false, false⟩ (some ((21 : Nat) : Int))
        (fun _ => ⟨0, 1⟩), c ∈ nanoAlphabet ⟨false, true, false, false⟩ :=
  ⟨by decide, fun _ => Nat.zero_lt_one, rfl,
    generateNanoID_length_alphabet ⟨false, true, false, false⟩ 21 (fun _ => ⟨0, 1⟩)
      (by decide) (fun _ => Nat.zero_lt_one)⟩

/-! ## Lemmas on `generateSlug` -/

theorem slugCharset_length_pos (cfg : CharConfig) : 0 < (slugCharset cfg).length := by
  rcases cfg with ⟨_ | _, _ | _, _ | _, _ | _⟩ <;> decide

theorem pickWord_ok (cfg : CharConfig) (d : Draw) (hd : d.valid) :
    ∃ w, words[d.scale words.length]? = some w ∧ pickWord cfg d = .ok (applyCase cfg w) := by
  have hlt := Draw.scale_lt d words.length hd (by decide)
  refine ⟨words[d.scale words.length], List.getElem?_eq_getElem hlt, ?_⟩
  simp [pickWord, List.getElem?_eq_getElem hlt]

theorem padChar_eq (cfg : CharConfig) (d : Draw) (hd : d.valid) :
    jsAt (slugCharset cfg) (d.scale (slugCharset cfg).length) =
      [digitChar (slugCharset cfg) (d.scale (slugCharset cfg).length)] :=
  jsAt_of_lt _ _ (Draw.scale_lt d _ hd (slugCharset_length_pos cfg))

theorem fillLoop_length (cfg : CharConfig) (rnd : Nat → Draw) (hr : ∀ k, (rnd k).valid) :
    ∀ (steps k : Nat) (slug : List Char),
      (fillLoop (slugCharset cfg) rnd steps k slug).1.length = slug.length + steps := by
  intro steps
  induction steps with
  | zero => intro k slug; simp [fillLoop]
  | succ steps ih =>
    intro k slug
    simp only [fillLoop]
    rw [ih, padChar_eq cfg (rnd k) (hr k)]
    simp
    omega

theorem slugLoop_of_ge (cfg : CharConfig) (T : Nat) (rnd : Nat → Draw) (fuel k : Nat)
    (slug : List Char) (h : T ≤ slug.length) :
    slugLoop cfg (T : Int) rnd fuel k slug = .ok (slug, k) := by
  have hc : ¬ ((slug.length : Int) < (T : Int)) := by omega
  cases fuel <;> simp [slugLoop, hc]

theorem slugLoop_length (cfg : CharConfig) (T : Nat) (rnd : Nat → Draw)
    (hr : ∀ k, (rnd k).valid) :
    ∀ (fuel k : Nat) (slug : List Char), slug.length ≤ T → T ≤ fuel + slug.length →
      ∃ s k', slugLoop cfg (T : Int) rnd fuel k slug = .ok (s, k') ∧ s.length = T := by
  intro fuel
  induction fuel with
  | zero =>
    intro k slug h1 h2
    have : slug.length = T := by omega
    exact ⟨slug, k, slugLoop_of_ge cfg T rnd 0 k slug (by omega), this⟩
  | succ fuel ih =>
    intro k slug h1 h2
    by_cases hlt : slug.length < T
    · have hc : (slug.length : Int) < (T : Int) := by omega
      simp only [slugLoop]
      rw [if_pos hc]
      by_cases hr1 : (T : Int) - (slug.length : Int) = 1
      · rw [if_pos hr1, padChar_eq cfg (rnd k) (hr k)]
        exact ih _ _ (by simp; omega) (by simp; omega)
      · rw [if_neg hr1]
        have hr2 : (T : Int) - (slug.length : Int) ≥ 2 := by omega
        rw [if_pos hr2]
        by_cases hr3 : (T : Int) - (slug.length : Int) ≥ 3
        · rw [if_pos hr3]
          obtain ⟨w, _, hw⟩ := pickWord_ok cfg (rnd k) (hr k)
          rw [hw]
          simp only []
          by_cases hfit : (((slug ++ [separator cfg]).length + (applyCase cfg w).length : Nat)
              : Int) ≤ (T : Int)
          · rw [if_pos hfit]
            have hfit' : (slug ++ [separator cfg]).length + (applyCase cfg w).length ≤ T := by
              exact_mod_cast hfit
            simp only [List.length_append, List.length_singleton] at hfit'
            exact ih _ _ (by simp; omega) (by simp; omega)
          · rw [if_neg hfit]
            have hfill := fillLoop_length cfg rnd hr
              ((T : Int) - ((slug ++ [separator cfg]).length : Int)).toNat (k + 1)
              (slug ++ [separator cfg])
            have hlen : (fillLoop (slugCharset cfg) rnd
                ((T : Int) - ((slug ++ [separator cfg]).length : Int)).toNat (k + 1)
                (slug ++ [separator cfg])).1.length = T := by
              rw [hfill]
              simp only [List.length_append, List.length_singleton]
              omega
            exact ih _ _ (by omega) (by omega)
        · rw [if_neg hr3, padChar_eq cfg (rnd k) (hr k)]
          exact ih _ _ (by simp; omega) (by simp; omega)
    · exact ⟨slug, k, slugLoop_of_ge cfg T rnd _ k slug (by omega), by omega⟩

/-! ## Claims on `generateSlug` -/

/-- C2: for every `targetLength ≥ 1`, every character-class configuration and every outcome of
the random source, `generateSlug` returns (given fuel for `targetLength` iterations of its
loop) a string of length exactly `targetLength`. -/
theorem generateSlug_length (cfg : CharConfig) (T : Nat) (rnd : Nat → Draw) (fuel : Nat)
    (hT : 1 ≤ T) (hr : ∀ k, (rnd k).valid) (hfuel : T ≤ fuel) :
    ∃ s, generateSlug cfg (some (T : Int)) rnd fuel = .ok s ∧ s.length = T := by
  obtain ⟨w, _, hw⟩ := pickWord_ok cfg (rnd 0) (hr 0)
  unfold generateSlug generateSlugAux
  simp only [orDefault_pos T hT, hw]
  by_cases hlen : (applyCase cfg w).length ≤ T
  · obtain ⟨s, k', hs, hsl⟩ := slugLoop_length cfg T rnd hr fuel 1 (applyCase cfg w) hlen
      (by omega)
    rw [hs]
    have hc : ¬ ((s.length : Int) > (T : Int)) := by omega
    simp only [if_neg hc]
    exact ⟨s, rfl, hsl⟩
  · rw [slugLoop_of_ge cfg T rnd fuel 1 _ (by omega)]
    have hc : ((applyCase cfg w).length : Int) > (T : Int) := by omega
    simp only [if_pos hc]
    refine ⟨_, rfl, ?_⟩
    simp [substring0]
    omega

theorem generateSlug_length_witness :
    1 ≤ 12 ∧ (∀ k, ((fun _ => ⟨0, 1⟩ : Nat → Draw) k).valid) ∧ 12 ≤ 12 ∧
      generateSlug ⟨false, true, false, false⟩ (some ((12 : Nat) : Int)) (fun _ => ⟨0, 1⟩) 12 =
        .ok "awesome-aaaa".toList ∧
      ∃ s, generateSlug ⟨false, true, false, false⟩ (some ((12 : Nat) : Int))
        (fun _ => ⟨0, 1⟩) 12 = .ok s ∧ s.length = 12 :=
  ⟨by decide, fun _ => Nat.zero_lt_one, by decide, rfl,
    generateSlug_length ⟨false, true, false, false⟩ 12 (fun _ => ⟨0, 1⟩) 12 (by decide)
      (fun _ => Nat.zero_lt_one) (by decide)⟩

/-! ## Claims on the resolved alphabets -/

/-- C11: when no character class is enabled, the alphabet resolved by `generateNanoID` (broad
symbol set) and by `generateHashID` (narrow symbol set) is exactly the 36-character string
`abcdefghijklmnopqrstuvwxyz0123456789`. -/
theorem default_alphabet_when_no_class :
    nanoAlphabet ⟨false, false, false, false⟩ = "abcdefghijklmnopqrstuvwxyz0123456789".toList ∧
      hashAlphabet ⟨false, false, false, false⟩ =
        "abcdefghijklmnopqrstuvwxyz0123456789".toList ∧
      (nanoAlphabet ⟨false, false, false, false⟩).length = 36 ∧
      (hashAlphabet ⟨false, false, false, false⟩).length = 36 :=
  ⟨rfl, rfl, rfl, rfl⟩

/-- C12 (as stated, refuted): with no class enabled the resolved alphabets contain `a`, which
belongs to the range of no enabled class (none is enabled). -/
theorem exactly_one_enabled_class_counterexample :
    'a' ∈ nanoAlphabet ⟨false, false, false, false⟩ ∧
      rangeCount (enabledRanges ⟨false, false, false, false⟩ broadSymbols) 'a' = 0 ∧
      'a' ∈ hashAlphabet ⟨false, false, false, false⟩ ∧
      rangeCount (enabledRanges ⟨false, false, false, false⟩ narrowSymbols) 'a' = 0 := by
  decide

set_option maxRecDepth 100000 in
/-- C12 (amended): for each of the 16 character-class combinations and for both symbol sets the
resolved alphabet is non-empty and contains no character twice; the uppercase, lowercase,
digit and symbol ranges are pairwise disjoint; when at least one class is enabled every
character of the alphabet belongs to exactly one enabled class's range; when none is enabled
the alphabet is the lowercase range followed by the digit range and every character belongs
to exactly one of these two ranges. -/
theorem resolved_alphabet_classes (cfg : CharConfig) :
    (nanoAlphabet cfg ≠ [] ∧ (nanoAlphabet cfg).Nodup ∧
      hashAlphabet cfg ≠ [] ∧ (hashAlphabet cfg).Nodup) ∧
    ((∀ c ∈ upperChars, c ∉ lowerChars ∧ c ∉ digitChars ∧ c ∉ broadSymbols ∧
        c ∉ narrowSymbols) ∧
      (∀ c ∈ lowerChars, c ∉ digitChars ∧ c ∉ broadSymbols ∧ c ∉ narrowSymbols) ∧
      (∀ c ∈ digitChars, c ∉ broadSymbols ∧ c ∉ narrowSymbols)) ∧
    ((cfg.uppercase || cfg.lowercase || cfg.numbers || cfg.symbols) = true →
      (∀ c ∈ nanoAlphabet cfg, rangeCount (enabledRanges cfg broadSymbols) c = 1) ∧
      (∀ c ∈ hashAlphabet cfg, rangeCount (enabledRanges cfg narrowSymbols) c = 1)) ∧
    ((cfg.uppercase || cfg.lowercase || cfg.numbers || cfg.symbols) = false →
      nanoAlphabet cfg = lowerChars ++ digitChars ∧
      hashAlphabet cfg = lowerChars ++ digitChars ∧
      ∀ c ∈ lowerChars ++ digitChars, rangeCount [lowerChars, digitChars] c = 1) := by
  refine ⟨?_, ⟨by decide, by decide, by decide⟩, ?_, ?_⟩
  · rcases cfg with ⟨_ | _, _ | _, _ | _, _ | _⟩ <;> decide
  · rcases cfg with ⟨_ | _, _ | _, _ | _, _ | _⟩ <;> decide
  · rcases cfg with ⟨_ | _, _ | _, _ | _, _ | _⟩ <;> decide

theorem resolved_alphabet_classes_witness :
    ((true || true || true || false) = true) ∧
      (∀ c ∈ nanoAlphabet ⟨true, true, true, false⟩,
        rangeCount (enabledRanges ⟨true, true, true, false⟩ broadSymbols) c = 1) ∧
      (∀ c ∈ hashAlphabet ⟨true, true, true, false⟩,
        rangeCount (enabledRanges ⟨true, true, true, false⟩ narrowSymbols) c = 1) :=
  ⟨rfl, (resolved_alphabet_classes ⟨true, true, true, false⟩).2.2.1 rfl⟩

/-! ## Further claims on the generators -/

/-- C13: for every `targetLength ≥ 1` smaller than the length of the first chosen word (after
the case transform), `generateSlug` returns exactly the first `targetLength` characters of
that word, with no separator or padding. -/
theorem generateSlug_short_target (cfg : CharConfig) (T : Nat) (rnd : Nat → Draw)
    (fuel : Nat) (w : List Char) (hT : 1 ≤ T)
    (hw : words[(rnd 0).scale words.length]? = some w)
    (hlt : T < (applyCase cfg w).length) :
    generateSlug cfg (some (T : Int)) rnd fuel = .ok ((applyCase cfg w).take T) := by
  have hpick : pickWord cfg (rnd 0) = .ok (applyCase cfg w) := by
    simp [pickWord, hw]
  unfold generateSlug generateSlugAux
  simp only [orDefault_pos T hT, hpick]
  rw [slugLoop_of_ge cfg T rnd fuel 1 _ (by omega)]
  have hc : ((applyCase cfg w).length : Int) > (T : Int) := by omega
  simp [hc, substring0]

theorem generateSlug_short_target_witness :
    1 ≤ 3 ∧ words[((fun _ => ⟨0, 1⟩ : Nat → Draw) 0).scale words.length]? =
        some "awesome".toList ∧
      3 < (applyCase ⟨true, true, false, false⟩ "awesome".toList).length ∧
      (applyCase ⟨true, true, false, false⟩ "awesome".toList).take 3 = "AWE".toList ∧
      generateSlug ⟨true, true, false, false⟩ (some ((3 : Nat) : Int)) (fun _ => ⟨0, 1⟩) 0 =
        .ok ((applyCase ⟨true, true, false, false⟩ "awesome".toList).take 3) :=
  ⟨by decide, rfl, by decide, rfl,
    generateSlug_short_target ⟨true, true, false, false⟩ 3 (fun _ => ⟨0, 1⟩) 0
      "awesome".toList (by decide) rfl (by decide)⟩

/-- C14 (evaluation at the failing input): with only the symbol class enabled, length `1` and
a draw of `2/3` (a value in `[0, 1)`), `generateNanoID` returns the string `#`, and `#` is
none of the characters that need no URL encoding. -/
theorem nanoID_not_url_safe :
    (⟨2, 3⟩ : Draw).valid ∧
      generateNanoID ⟨false, false, false, true⟩ (some 1) (fun _ => ⟨2, 3⟩) = ['#'] ∧
      '#' ∉ urlSafeChars := by
  refine ⟨by decide, rfl, by decide⟩

theorem count_guard_agrees_off_zero (count : Int) (h : count ≠ 0) :
    validateInput (some count) = true ↔
      (orDefault (some count) 1 < 1 ∨ orDefault (some count) 1 > 10000) := by
  simp only [validateInput, orDefault, h, if_false, Bool.not_eq_true', Bool.and_eq_false_imp,
    decide_eq_true_eq, decide_eq_false_iff_not]
  omega

/-- C16 (evaluation at the failing input): for the entered count `0`, `validateInput` disables
the generate button, yet `generateIDs` reports no error and stores a batch of one identifier
(here the reversible encoding of `1`). -/
theorem generateIDs_accepts_zero :
    validateInput (some 0) = true ∧
      orDefault (some 0) 1 = 1 ∧
      generateIDs ⟨[], []⟩ (some 0) .hashids ⟨false, true, true, false⟩ (some 6) 100
        (fun _ => ⟨0, 1⟩) = .ok ⟨["cak97b".toList], []⟩ := by
  refine ⟨rfl, rfl, rfl⟩

/-- C18: the result of `generateHashID` is a function of the number, the four character-class
flags and the desired length only: two runs with the same flags, number and desired length
(whatever the slider text that produced it and the fuel given) return the same string; and the
`hashids` branch of the batch loop returns the same identifier for every random stream and
makes no call of `Math.random`. -/
theorem generateHashID_deterministic (cfg : CharConfig) (slider slider' : Option Int)
    (L fuel fuel' n : Nat) (h1 : orDefault slider 8 = (L : Int))
    (h2 : orDefault slider' 8 = (L : Int)) (hf : n + L < fuel) (hf' : n + L < fuel') :
    (∃ id, generateHashID cfg slider fuel n = .ok id ∧
      generateHashID cfg slider' fuel' n = .ok id) ∧
    ∀ (rnd rnd' : Nat → Draw) (i : Nat),
      generateOne .hashids cfg slider fuel rnd i = generateOne .hashids cfg slider fuel rnd' i ∧
      ∀ id k, generateOne .hashids cfg slider fuel rnd i = .ok (id, k) →
        k = 0 ∧ generateHashID cfg slider fuel (i + 1) = .ok id := by
  constructor
  · unfold generateHashID
    rw [h1, h2, encodeHashID_eq _ (hashAlphabet_length_ge cfg) L fuel n hf,
      encodeHashID_eq _ (hashAlphabet_length_ge cfg) L fuel' n hf']
    exact ⟨_, rfl, rfl⟩
  · intro rnd rnd' i
    refine ⟨rfl, ?_⟩
    intro id k h
    unfold generateOne at h
    cases hg : generateHashID cfg slider fuel (i + 1) with
    | error e => simp [hg] at h
    | ok v =>
      simp only [hg, Except.ok.injEq, Prod.mk.injEq] at h
      exact ⟨h.2.symm, by rw [h.1]⟩

theorem generateHashID_deterministic_witness :
    orDefault none 8 = ((8 : Nat) : Int) ∧ orDefault (some 8) 8 = ((8 : Nat) : Int) ∧
      123 + 8 < 200 ∧ 123 + 8 < 300 ∧
      ∃ id, generateHashID ⟨false, true, true, false⟩ none 200 123 = .ok id ∧
        generateHashID ⟨false, true, true, false⟩ (some 8) 300 123 = .ok id :=
  ⟨rfl, rfl, by decide, by decide,
    (generateHashID_deterministic ⟨false, true, true, false⟩ none (some 8) 8 200 300 123
      rfl rfl (by decide) (by decide)).1⟩

/-! ## The growth loop of `generateSlug` -/

theorem slugLoop_succ (cfg : CharConfig) (T : Int) (rnd : Nat → Draw) (fuel k : Nat)
    (slug : List Char) :
    slugLoop cfg T rnd (fuel + 1) k slug =
      if (slug.length : Int) < T then
        match slugStep cfg T rnd k slug with
        | .error e => .error e
        | .ok r => slugLoop cfg T rnd fuel r.2 r.1
      else .ok (slug, k) := by
  simp only [slugLoop, slugStep]
  split_ifs <;> try rfl
  cases pickWord cfg (rnd k) with
  | error e => rfl
  | ok w =>
    simp only []
    split_ifs <;> rfl

theorem slugStep_grows (cfg : CharConfig) (T : Nat) (rnd : Nat → Draw)
    (hr : ∀ k, (rnd k).valid) (k : Nat) (slug : List Char) (hlt : slug.length < T) :
    ∃ s k', slugStep cfg (T : Int) rnd k slug = .ok (s, k') ∧ slug.length < s.length ∧
      s.length ≤ T := by
  simp only [slugStep]
  by_cases hr1 : (T : Int) - (slug.length : Int) = 1
  · rw [if_pos hr1, padChar_eq cfg (rnd k) (hr k)]
    refine ⟨_, _, rfl, ?_, ?_⟩ <;> simp only [List.length_append, List.length_singleton] <;>
      omega
  · rw [if_neg hr1]
    have hr2 : (T : Int) - (slug.length : Int) ≥ 2 := by omega
    rw [if_pos hr2]
    by_cases hr3 : (T : Int) - (slug.length : Int) ≥ 3
    · rw [if_pos hr3]
      obtain ⟨w, _, hw⟩ := pickWord_ok cfg (rnd k) (hr k)
      rw [hw]
      simp only []
      by_cases hfit : (((slug ++ [separator cfg]).length + (applyCase cfg w).length : Nat)
          : Int) ≤ (T : Int)
      · rw [if_pos hfit]
        have hfit' : (slug ++ [separator cfg]).length + (applyCase cfg w).length ≤ T := by
          exact_mod_cast hfit
        simp only [List.length_append, List.length_singleton] at hfit'
        refine ⟨_, _, rfl, ?_, ?_⟩ <;>
          simp only [List.length_append, List.length_singleton] <;> omega
      · rw [if_neg hfit]
        have hfill := fillLoop_length cfg rnd hr
          ((T : Int) - ((slug ++ [separator cfg]).length : Int)).toNat (k + 1)
          (slug ++ [separator cfg])
        refine ⟨_, _, rfl, ?_, ?_⟩ <;> rw [hfill] <;>
          simp only [List.length_append, List.length_singleton] <;> omega
    · rw [if_neg hr3, padChar_eq cfg (rnd k) (hr k)]
      refine ⟨_, _, rfl, ?_, ?_⟩ <;> simp only [List.length_append, List.length_singleton] <;>
        omega

/-- C19: every iteration of the growth loop of `generateSlug` (entered with a slug shorter than
`targetLength`) appends at least one character and does not make the slug longer than
`targetLength`; the loop is the iteration of that step, it ends within `targetLength`
iterations, and when the initial word is not longer than `targetLength` the final truncation
leaves the slug as the loop produced it. -/
theorem slug_growth_loop (cfg : CharConfig) (T : Nat) (rnd : Nat → Draw) (hT : 1 ≤ T)
    (hr : ∀ k, (rnd k).valid) :
    (∀ (k : Nat) (slug : List Char), slug.length < T →
      ∃ s k', slugStep cfg (T : Int) rnd k slug = .ok (s, k') ∧ slug.length < s.length ∧
        s.length ≤ T) ∧
    (∀ (fuel k : Nat) (slug : List Char),
      slugLoop cfg (T : Int) rnd (fuel + 1) k slug =
        if (slug.length : Int) < (T : Int) then
          match slugStep cfg (T : Int) rnd k slug with
          | .error e => .error e
          | .ok r => slugLoop cfg (T : Int) rnd fuel r.2 r.1
        else .ok (slug, k)) ∧
    (∀ (k : Nat) (slug : List Char),
      ∃ s k', slugLoop cfg (T : Int) rnd T k slug = .ok (s, k') ∧
        (slug.length ≤ T → s.length = T) ∧ (T ≤ slug.length → s = slug)) ∧
    (∀ (fuel : Nat) (w : List Char), T ≤ fuel → pickWord cfg (rnd 0) = .ok w →
      w.length ≤ T →
      ∃ s k', slugLoop cfg (T : Int) rnd fuel 1 w = .ok (s, k') ∧ s.length = T ∧
        generateSlugAux cfg (some (T : Int)) rnd fuel = .ok (s, k')) := by
  refine ⟨fun k slug h => slugStep_grows cfg T rnd hr k slug h,
    fun fuel k slug => slugLoop_succ cfg T rnd fuel k slug, ?_, ?_⟩
  · intro k slug
    by_cases hle : slug.length ≤ T
    · obtain ⟨s, k', hs, hl⟩ := slugLoop_length cfg T rnd hr T k slug hle (by omega)
      refine ⟨s, k', hs, fun _ => hl, ?_⟩
      intro hge
      have heq : slugLoop cfg (T : Int) rnd T k slug = .ok (slug, k) :=
        slugLoop_of_ge cfg T rnd T k slug hge
      rw [heq] at hs
      injection hs with hs
      exact (congrArg Prod.fst hs).symm
    · exact ⟨slug, k, slugLoop_of_ge cfg T rnd T k slug (by omega),
        fun h => absurd h hle, fun _ => rfl⟩
  · intro fuel w hfuel hw hlen
    obtain ⟨s, k', hs, hl⟩ := slugLoop_length cfg T rnd hr fuel 1 w hlen (by omega)
    refine ⟨s, k', hs, hl, ?_⟩
    unfold generateSlugAux
    simp only [orDefault_pos T hT, hw, hs]
    have hc : ¬ ((s.length : Int) > (T : Int)) := by omega
    simp [hc]

theorem slug_growth_loop_witness :
    1 ≤ 12 ∧ (∀ k, ((fun _ => ⟨0, 1⟩ : Nat → Draw) k).valid) ∧
      (∀ (k : Nat) (slug : List Char), slug.length < 12 →
        ∃ s k', slugStep ⟨false, true, false, false⟩ ((12 : Nat) : Int) (fun _ => ⟨0, 1⟩) k
            slug = .ok (s, k') ∧ slug.length < s.length ∧ s.length ≤ 12) :=
  ⟨by decide, fun _ => Nat.zero_lt_one,
    (slug_growth_loop ⟨false, true, false, false⟩ 12 (fun _ => ⟨0, 1⟩) (by decide)
      (fun _ => Nat.zero_lt_one)).1⟩

/-! ## The characters of a slug -/

theorem slugCharset_allowed (cfg : CharConfig) : ∀ c ∈ slugCharset cfg, c ∈ slugAllowed cfg := by
  rcases cfg with ⟨_ | _, _ | _, _ | _, _ | _⟩ <;> decide

theorem separator_allowed (cfg : CharConfig) : separator cfg ∈ slugAllowed cfg := by
  rcases cfg with ⟨_ | _, _ | _, _ | _, _ | _⟩ <;> decide

set_option maxRecDepth 100000 in
theorem applyCase_allowed (cfg : CharConfig) :
    ∀ w ∈ words, ∀ c ∈ applyCase cfg w, c ∈ slugAllowed cfg := by
  rcases cfg with ⟨_ | _, _ | _, _ | _, _ | _⟩ <;> decide

theorem mem_words_of_getElem? (i : Nat) (w : List Char) (h : words[i]? = some w) :
    w ∈ words := by
  rw [List.getElem?_eq_some] at h
  obtain ⟨hi, rfl⟩ := h
  exact List.getElem_mem hi

theorem fillLoop_ext (cfg : CharConfig) (rnd : Nat → Draw) (hr : ∀ k, (rnd k).valid) :
    ∀ (steps k : Nat) (slug : List Char),
      ∃ ext, (fillLoop (slugCharset cfg) rnd steps k slug).1 = slug ++ ext ∧
        ∀ c ∈ ext, c ∈ slugCharset cfg := by
  intro steps
  induction steps with
  | zero =>
    intro k slug
    exact ⟨[], by simp [fillLoop], by simp⟩
  | succ steps ih =>
    intro k slug
    simp only [fillLoop]
    rw [padChar_eq cfg (rnd k) (hr k)]
    obtain ⟨ext, h1, h2⟩ := ih (k + 1)
      (slug ++ [digitChar (slugCharset cfg) ((rnd k).scale (slugCharset cfg).length)])
    refine ⟨digitChar (slugCharset cfg) ((rnd k).scale (slugCharset cfg).length) :: ext,
      by rw [h1]; simp, ?_⟩
    intro c hc
    rcases List.mem_cons.mp hc with h | h
    · rw [h]
      exact digitChar_mem _ _ (Draw.scale_lt (rnd k) _ (hr k) (slugCharset_length_pos cfg))
    · exact h2 c h

theorem padChar_allowed (cfg : CharConfig) (d : Draw) (hd : d.valid) :
    digitChar (slugCharset cfg) (d.scale (slugCharset cfg).length) ∈ slugAllowed cfg :=
  slugCharset_allowed cfg _
    (digitChar_mem _ _ (Draw.scale_lt d _ hd (slugCharset_length_pos cfg)))

theorem slugStep_ext (cfg : CharConfig) (T : Int) (rnd : Nat → Draw)
    (hr : ∀ k, (rnd k).valid) (k : Nat) (slug s : List Char) (k' : Nat)
    (h : slugStep cfg T rnd k slug = .ok (s, k')) :
    ∃ ext, s = slug ++ ext ∧ ∀ c ∈ ext, c ∈ slugAllowed cfg := by
  obtain ⟨w, hwmem, hw⟩ := pickWord_ok cfg (rnd k) (hr k)
  have hwords : w ∈ words := mem_words_of_getElem? _ w hwmem
  obtain ⟨ext, hext, hextmem⟩ := fillLoop_ext cfg rnd hr
    (T - ((slug ++ [separator cfg]).length : Int)).toNat (k + 1) (slug ++ [separator cfg])
  simp only [slugStep, hw, padChar_eq cfg (rnd k) (hr k)] at h
  split_ifs at h <;> simp only [Except.ok.injEq, Prod.mk.injEq] at h <;>
    obtain ⟨h, -⟩ := h <;> subst h
  · exact ⟨_, rfl, fun c hc => by
      rw [List.mem_singleton.mp hc]; exact padChar_allowed cfg _ (hr k)⟩
  · refine ⟨separator cfg :: applyCase cfg w, by simp, ?_⟩
    intro c hc
    rcases List.mem_cons.mp hc with h | h
    · rw [h]; exact separator_allowed cfg
    · exact applyCase_allowed cfg w hwords c h
  · refine ⟨separator cfg :: ext, by rw [hext]; simp, ?_⟩
    intro c hc
    rcases List.mem_cons.mp hc with h | h
    · rw [h]; exact separator_allowed cfg
    · exact slugCharset_allowed cfg c (hextmem c h)
  · refine ⟨[separator cfg,
      digitChar (slugCharset cfg) ((rnd k).scale (slugCharset cfg).length)], by simp, ?_⟩
    intro c hc
    simp only [List.mem_cons, List.mem_singleton, List.not_mem_nil, or_false] at hc
    rcases hc with h | h
    · rw [h]; exact separator_allowed cfg
    · rw [h]; exact padChar_allowed cfg _ (hr k)
  · exact ⟨[], by simp, by simp⟩

theorem slugLoop_ext (cfg : CharConfig) (T : Nat) (rnd : Nat → Draw)
    (hr : ∀ k, (rnd k).valid) :
    ∀ (fuel k : Nat) (slug : List Char), slug.length ≤ T → T ≤ fuel + slug.length →
      ∃ s k' ext, slugLoop cfg (T : Int) rnd fuel k slug = .ok (s, k') ∧ s.length = T ∧
        s = slug ++ ext ∧ ∀ c ∈ ext, c ∈ slugAllowed cfg := by
  intro fuel
  induction fuel with
  | zero =>
    intro k slug h1 h2
    exact ⟨slug, k, [], slugLoop_of_ge cfg T rnd 0 k slug (by omega), by omega, by simp,
      by simp⟩
  | succ fuel ih =>
    intro k slug h1 h2
    by_cases hlt : slug.length < T
    · obtain ⟨s1, k1, hstep, hg1, hg2⟩ := slugStep_grows cfg T rnd hr k slug hlt
      obtain ⟨ext1, he1, hm1⟩ := slugStep_ext cfg T rnd hr k slug s1 k1 hstep
      obtain ⟨s, k', ext, hs, hl, he, hm⟩ := ih k1 s1 hg2 (by omega)
      have hc : (slug.length : Int) < (T : Int) := by omega
      refine ⟨s, k', ext1 ++ ext, ?_, hl, by rw [he, he1]; simp, ?_⟩
      · rw [slugLoop_succ, if_pos hc, hstep]
        exact hs
      · intro c hc'
        rcases List.mem_append.mp hc' with h | h
        · exact hm1 c h
        · exact hm c h
    · exact ⟨slug, k, [], slugLoop_of_ge cfg T rnd _ k slug (by omega), by omega, by simp,
        by simp⟩

theorem generateSlugAux_spec (cfg : CharConfig) (T : Nat) (rnd : Nat → Draw) (fuel : Nat)
    (hT : 1 ≤ T) (hr : ∀ k, (rnd k).valid) (hfuel : T ≤ fuel) :
    ∃ s k w, w ∈ words ∧ pickWord cfg (rnd 0) = .ok (applyCase cfg w) ∧
      generateSlugAux cfg (some (T : Int)) rnd fuel = .ok (s, k) ∧ s.length = T ∧
      (applyCase cfg w).take T <+: s ∧ ∀ c ∈ s, c ∈ slugAllowed cfg := by
  obtain ⟨w, hwmem, hw⟩ := pickWord_ok cfg (rnd 0) (hr 0)
  have hwords : w ∈ words := mem_words_of_getElem? _ w hwmem
  unfold generateSlugAux
  simp only [orDefault_pos T hT, hw]
  by_cases hlen : (applyCase cfg w).length ≤ T
  · obtain ⟨s, k', ext, hs, hsl, he, hm⟩ :=
      slugLoop_ext cfg T rnd hr fuel 1 (applyCase cfg w) hlen (by omega)
    rw [hs]
    have hc : ¬ ((s.length : Int) > (T : Int)) := by omega
    simp only [if_neg hc]
    refine ⟨s, k', w, hwords, rfl, rfl, hsl, ?_, ?_⟩
    · rw [List.take_of_length_le hlen, he]
      exact List.prefix_append _ _
    · intro c hc'
      rw [he] at hc'
      rcases List.mem_append.mp hc' with h | h
      · exact applyCase_allowed cfg w hwords c h
      · exact hm c h
  · rw [slugLoop_of_ge cfg T rnd fuel 1 _ (by omega)]
    have hc : ((applyCase cfg w).length : Int) > (T : Int) := by omega
    simp only [if_pos hc]
    refine ⟨_, 1, w, hwords, rfl, rfl, ?_, ?_, ?_⟩
    · simp [substring0]
      omega
    · simp [substring0]
    · intro c hc'
      exact applyCase_allowed cfg w hwords c (List.mem_of_mem_take hc')

/-- C15 (as stated, refuted): with the lowercase and symbol classes enabled, target length
`12` and every draw `0`, `generateSlug` returns `awesome_aaaa`, which contains `_`, a
character that is neither an ASCII letter, nor a digit, nor `-`. -/
theorem slug_alphanumeric_hyphen_counterexample :
    (∀ k, ((fun _ => ⟨0, 1⟩ : Nat → Draw) k).valid) ∧
      generateSlug ⟨false, true, false, true⟩ (some 12) (fun _ => ⟨0, 1⟩) 12 =
        .ok "awesome_aaaa".toList ∧
      '_' ∈ "awesome_aaaa".toList ∧
      ¬ ('_' ∈ upperChars ∨ '_' ∈ lowerChars ∨ '_' ∈ digitChars ∨ '_' = '-') :=
  ⟨fun _ => Nat.zero_lt_one, rfl, by decide, by decide⟩

/-- C15 (amended): for every character-class configuration, every `targetLength ≥ 1` and every
outcome of the random source, each character of the result of `generateSlug` is an ASCII
letter, a digit, `-`, or (only when the symbol class is enabled) `_`. -/
theorem slug_characters (cfg : CharConfig) (T : Nat) (rnd : Nat → Draw) (fuel : Nat)
    (hT : 1 ≤ T) (hr : ∀ k, (rnd k).valid) (hfuel : T ≤ fuel) :
    ∃ s, generateSlug cfg (some (T : Int)) rnd fuel = .ok s ∧
      ∀ c ∈ s, c ∈ upperChars ∨ c ∈ lowerChars ∨ c ∈ digitChars ∨ c = '-' ∨
        (cfg.symbols = true ∧ c = '_') := by
  obtain ⟨s, k, w, _, _, hs, _, _, hm⟩ := generateSlugAux_spec cfg T rnd fuel hT hr hfuel
  refine ⟨s, by simp [generateSlug, hs], ?_⟩
  intro c hc
  have h := hm c hc
  simp only [slugAllowed, List.mem_append, List.mem_singleton] at h
  rcases h with (((h | h) | h) | h) | h
  · exact Or.inl h
  · exact Or.inr (Or.inl h)
  · exact Or.inr (Or.inr (Or.inl h))
  · exact Or.inr (Or.inr (Or.inr (Or.inl h)))
  · right; right; right; right
    by_cases hsym : cfg.symbols = true
    · rw [if_pos hsym] at h
      exact ⟨hsym, List.mem_singleton.mp h⟩
    · simp [hsym] at h

theorem slug_characters_witness :
    1 ≤ 12 ∧ (∀ k, ((fun _ => ⟨0, 1⟩ : Nat → Draw) k).valid) ∧ 12 ≤ 12 ∧
      ∃ s, generateSlug ⟨false, true, false, true⟩ (some ((12 : Nat) : Int))
          (fun _ => ⟨0, 1⟩) 12 = .ok s ∧
        ∀ c ∈ s, c ∈ upperChars ∨ c ∈ lowerChars ∨ c ∈ digitChars ∨ c = '-' ∨
          ((⟨false, true, false, true⟩ : CharConfig).symbols = true ∧ c = '_') :=
  ⟨by decide, fun _ => Nat.zero_lt_one, by decide,
    slug_characters ⟨false, true, false, true⟩ 12 (fun _ => ⟨0, 1⟩) 12 (by decide)
      (fun _ => Nat.zero_lt_one) (by decide)⟩

theorem words_lowercase : ∀ w ∈ words, (∀ c ∈ w, c ∈ lowerChars) ∧
    (∀ c ∈ w.map Char.toUpper, c ∈ upperChars) ∧ w.map Char.toLower = w := by
  decide

theorem applyCase_eq (cfg : CharConfig) (w : List Char) (hw : w ∈ words) :
    applyCase cfg w = if cfg.uppercase then w.map Char.toUpper else w := by
  unfold applyCase
  by_cases hu : cfg.uppercase = true
  · simp [hu]
  · by_cases hl : cfg.lowercase = true
    · simp [hu, hl, (words_lowercase w hw).2.2]
    · simp [hu, hl]

/-- C20: the case tie-break of `generateSlug`: every word chosen for the slug is a word-list
entry, upper-cased whenever the uppercase class is enabled (also when lowercase is enabled
too) and left in lowercase otherwise (every word-list entry consists of lowercase letters, and
its upper-cased form of uppercase letters); the slug begins with the first `targetLength`
characters of such a word. -/
theorem slug_case_tie_break (cfg : CharConfig) (T : Nat) (rnd : Nat → Draw) (fuel : Nat)
    (hT : 1 ≤ T) (hr : ∀ k, (rnd k).valid) (hfuel : T ≤ fuel) :
    (∀ w ∈ words, (∀ c ∈ w, c ∈ lowerChars) ∧ (∀ c ∈ w.map Char.toUpper, c ∈ upperChars)) ∧
    (∀ k, ∃ w ∈ words,
      pickWord cfg (rnd k) = .ok (if cfg.uppercase then w.map Char.toUpper else w)) ∧
    ∃ s w, w ∈ words ∧ generateSlug cfg (some (T : Int)) rnd fuel = .ok s ∧
      ((if cfg.uppercase then w.map Char.toUpper else w).take T) <+: s := by
  refine ⟨fun w hw => ⟨(words_lowercase w hw).1, (words_lowercase w hw).2.1⟩, ?_, ?_⟩
  · intro k
    obtain ⟨w, hwmem, hw⟩ := pickWord_ok cfg (rnd k) (hr k)
    have hwords : w ∈ words := mem_words_of_getElem? _ w hwmem
    exact ⟨w, hwords, by rw [hw, applyCase_eq cfg w hwords]⟩
  · obtain ⟨s, k, w, hwords, _, hs, _, hpre, _⟩ :=
      generateSlugAux_spec cfg T rnd fuel hT hr hfuel
    refine ⟨s, w, hwords, by simp [generateSlug, hs], ?_⟩
    rw [← applyCase_eq cfg w hwords]
    exact hpre

theorem slug_case_tie_break_witness :
    1 ≤ 12 ∧ (∀ k, ((fun _ => ⟨0, 1⟩ : Nat → Draw) k).valid) ∧ 12 ≤ 12 ∧
      generateSlug ⟨true, true, false, false⟩ (some ((12 : Nat) : Int)) (fun _ => ⟨0, 1⟩) 12 =
        .ok "AWESOME-AAAA".toList ∧
      ∃ s w, w ∈ words ∧
        generateSlug ⟨true, true, false, false⟩ (some ((12 : Nat) : Int))
          (fun _ => ⟨0, 1⟩) 12 = .ok s ∧
        ((if (⟨true, true, false, false⟩ : CharConfig).uppercase then w.map Char.toUpper
          else w).take 12) <+: s :=
  ⟨by decide, fun _ => Nat.zero_lt_one, by decide, rfl,
    (slug_case_tie_break ⟨true, true, false, false⟩ 12 (fun _ => ⟨0, 1⟩) 12 (by decide)
      (fun _ => Nat.zero_lt_one) (by decide)).2.2⟩

/-! ## The batch driver -/

theorem generateOne_ok (type : Scheme) (cfg : CharConfig) (L fuel : Nat) (rnd : Nat → Draw)
    (i : Nat) (hL : 1 ≤ L) (hr : ∀ k, (rnd k).valid) (hfuel : i + 1 + L < fuel) :
    ∃ id n, generateOne type cfg (some (L : Int)) fuel rnd i = .ok (id, n) ∧
      (type = .hashids → generateHashID cfg (some (L : Int)) fuel (i + 1) = .ok id) := by
  cases type with
  | uuid => exact ⟨_, _, rfl, fun h => by cases h⟩
  | nanoid => exact ⟨_, _, rfl, fun h => by cases h⟩
  | other => exact ⟨_, _, rfl, fun h => by cases h⟩
  | hashids =>
    have h := generateHashID_eq cfg L fuel (i + 1) hL hfuel
    exact ⟨_, 0, by simp [generateOne, h], fun _ => h⟩
  | slug =>
    obtain ⟨s, k, _, _, _, hs, _⟩ := generateSlugAux_spec cfg L rnd fuel hL hr (by omega)
    exact ⟨s, k, by simp [generateOne, hs], fun h => by cases h⟩

theorem batchLoop_spec (type : Scheme) (cfg : CharConfig) (L fuel : Nat) (rnd : Nat → Draw)
    (hL : 1 ≤ L) (hr : ∀ k, (rnd k).valid) :
    ∀ (steps i k : Nat) (ids : List (List Char)), ids.length = i → i + steps + L < fuel →
      ∃ out, batchLoop type cfg (some (L : Int)) fuel rnd steps i k ids = (out, none) ∧
        out.length = i + steps ∧ (∀ j, j < i → out[j]? = ids[j]?) ∧
        ∀ j, i ≤ j → j < i + steps →
          ∃ k' id n, generateOne type cfg (some (L : Int)) fuel (fun t => rnd (k' + t)) j =
              .ok (id, n) ∧ out[j]? = some id ∧
            (type = .hashids → generateHashID cfg (some (L : Int)) fuel (j + 1) = .ok id) := by
  intro steps
  induction steps with
  | zero =>
    intro i k ids hlen _
    exact ⟨ids, rfl, by simpa using hlen, fun _ _ => rfl, fun j h1 h2 => by omega⟩
  | succ steps ih =>
    intro i k ids hlen hfuel
    obtain ⟨id, n, hone, hhash⟩ := generateOne_ok type cfg L fuel (fun t => rnd (k + t)) i hL
      (fun t => hr (k + t)) (by omega)
    obtain ⟨out, hout, hl, hpre, hrest⟩ := ih (i + 1) (k + n) (ids ++ [id])
      (by simp [hlen]) (by omega)
    have hi : out[i]? = some id := by
      rw [hpre i (by omega), List.getElem?_append_right (by omega)]
      simp [hlen]
    refine ⟨out, ?_, by omega, ?_, ?_⟩
    · simp only [batchLoop, hone]
      exact hout
    · intro j hj
      rw [hpre j (by omega), List.getElem?_append_left (by omega)]
    · intro j hj1 hj2
      rcases Nat.eq_or_lt_of_le hj1 with h | h
      · subst h
        exact ⟨k, id, n, hone, hi, hhash⟩
      · exact hrest j (by omega) (by omega)

/-- C17: for every scheme and every valid count `c`, the batch built by `generateIDs` has
exactly `c` elements and element `i` (0-based) is the identifier generated at loop index `i`
(by the `switch` statement run on the random stream left at that point); for the `hashids`
scheme element `i` is the encoding of the integer `i + 1`. -/
theorem generateIDs_batch (app : App) (type : Scheme) (cfg : CharConfig) (c L fuel : Nat)
    (rnd : Nat → Draw) (hc1 : 1 ≤ c) (hc2 : c ≤ 10000) (hL : 1 ≤ L)
    (hr : ∀ k, (rnd k).valid) (hfuel : c + L < fuel) :
    ∃ ids, generateIDs app (some (c : Int)) type cfg (some (L : Int)) fuel rnd =
        .ok { app with generatedIDs := ids } ∧
      ids.length = c ∧
      ∀ i, i < c →
        ∃ k id n, generateOne type cfg (some (L : Int)) fuel (fun t => rnd (k + t)) i =
            .ok (id, n) ∧ ids[i]? = some id ∧
          (type = .hashids → generateHashID cfg (some (L : Int)) fuel (i + 1) = .ok id) := by
  obtain ⟨out, hout, hl, _, hrest⟩ := batchLoop_spec type cfg L fuel rnd hL hr c 0 0 []
    rfl (by omega)
  have hcond : ¬ ((c : Int) < 1 ∨ (c : Int) > 10000) := by omega
  refine ⟨out, ?_, by omega, fun i hi => hrest i (by omega) (by omega)⟩
  unfold generateIDs
  simp only [orDefault_pos c hc1, hcond, if_false, Int.toNat_ofNat, hout]

theorem generateIDs_batch_witness :
    1 ≤ 3 ∧ 3 ≤ 10000 ∧ 1 ≤ 6 ∧ (∀ k, ((fun _ => ⟨0, 1⟩ : Nat → Draw) k).valid) ∧
      3 + 6 < 100 ∧
      generateIDs ⟨[], []⟩ (some ((3 : Nat) : Int)) .hashids ⟨false, true, true, false⟩
          (some ((6 : Nat) : Int)) 100 (fun _ => ⟨0, 1⟩) =
        .ok ⟨["cak97b".toList, "cak97c".toList, "cak97d".toList], []⟩ ∧
      ∃ ids, generateIDs ⟨[], []⟩ (some ((3 : Nat) : Int)) .hashids
          ⟨false, true, true, false⟩ (some ((6 : Nat) : Int)) 100 (fun _ => ⟨0, 1⟩) =
            .ok { (⟨[], []⟩ : App) with generatedIDs := ids } ∧
        ids.length = 3 :=
  ⟨by decide, by decide, by decide, fun _ => Nat.zero_lt_one, by decide, rfl,
    (generateIDs_batch ⟨[], []⟩ .hashids ⟨false, true, true, false⟩ 3 6 100 (fun _ => ⟨0, 1⟩)
      (by decide) (by decide) (by decide) (fun _ => Nat.zero_lt_one) (by decide)).imp
      fun _ h => ⟨h.1, h.2.1⟩⟩

/-! ## `isValidUUID` on generated tokens -/

theorem matchRepeat_of_forall₂ (cls : List Char) :
    ∀ (n : Nat) (P : List (List Char)) (s : List Char),
      List.Forall₂ (fun k c => inClass k c = true) (List.replicate n cls ++ P) s →
      ∃ rest, matchRepeat cls n s = some rest ∧
        List.Forall₂ (fun k c => inClass k c = true) P rest := by
  intro n
  induction n with
  | zero =>
    intro P s h
    exact ⟨s, rfl, by simpa using h⟩
  | succ n ih =>
    intro P s h
    rw [List.replicate_succ, List.cons_append] at h
    cases h with
    | cons hc htail =>
      obtain ⟨rest, h1, h2⟩ := ih P _ htail
      exact ⟨rest, by simp [matchRepeat, hc, h1], h2⟩

theorem matchPieces_of_forall₂ :
    ∀ (ps : List RegexPiece) (s : List Char),
      List.Forall₂ (fun k c => inClass k c = true) (expandPieces ps) s →
      matchPieces ps s = true := by
  intro ps
  induction ps with
  | nil =>
    intro s h
    cases h
    rfl
  | cons p ps ih =>
    intro s h
    obtain ⟨rest, h1, h2⟩ := matchRepeat_of_forall₂ p.chars p.count (expandPieces ps) s h
    simp only [matchPieces, h1]
    exact ih rest h2

theorem forall₂_chain {α β γ : Type} (R : α → β → Prop) (Q : β → γ → Prop)
    (S : α → γ → Prop) (hRQ : ∀ a b c, R a b → Q b c → S a c) :
    ∀ (as : List α) (bs : List β) (cs : List γ),
      List.Forall₂ R as bs → List.Forall₂ Q bs cs → List.Forall₂ S as cs := by
  intro as bs cs h1
  induction h1 generalizing cs with
  | nil =>
    intro h2
    cases h2
    exact List.Forall₂.nil
  | cons hab _ ih =>
    intro h2
    cases h2 with
    | cons hbc htail => exact List.Forall₂.cons (hRQ _ _ _ hab hbc) (ih _ htail)

theorem inClass_hex_of_x (c : Char) (h : uuidCharOK 'x' c) :
    inClass "0123456789abcdef".toList c = true := by
  simp only [uuidCharOK, if_true, hexChars] at h
  simp only [String.toList, List.mem_cons, List.mem_singleton, List.not_mem_nil,
    or_false] at h
  rcases h with h | h | h | h | h | h | h | h | h | h | h | h | h | h | h | h <;>
    subst h <;> decide

theorem inClass_variant_of_y (c : Char) (h : uuidCharOK 'y' c) :
    inClass "89ab".toList c = true := by
  have hne : ¬ ('y' = 'x') := by decide
  simp only [uuidCharOK, hne, if_false, if_true, List.mem_cons, List.mem_singleton,
    List.not_mem_nil, or_false] at h
  rcases h with h | h | h | h <;> subst h <;> decide

theorem inClass_dash (c : Char) (h : uuidCharOK '-' c) : inClass ['-'] c = true := by
  have h1 : ¬ ('-' = 'x') := by decide
  have h2 : ¬ ('-' = 'y') := by decide
  simp only [uuidCharOK, h1, h2, if_false] at h
  subst h
  decide

theorem inClass_four (c : Char) (h : uuidCharOK '4' c) : inClass ['4'] c = true := by
  have h1 : ¬ ('4' = 'x') := by decide
  have h2 : ¬ ('4' = 'y') := by decide
  simp only [uuidCharOK, h1, h2, if_false] at h
  subst h
  decide

theorem uuidRegex_covers_template :
    List.Forall₂ (fun k t => ∀ c, uuidCharOK t c → inClass k c = true)
      (expandPieces uuidRegex) uuidTemplate := by
  simp only [uuidRegex, expandPieces, List.replicate, uuidTemplate, String.toList,
    List.cons_append, List.nil_append, List.append_nil]
  repeat' first
    | exact List.Forall₂.nil
    | refine List.Forall₂.cons inClass_hex_of_x ?_
    | refine List.Forall₂.cons inClass_variant_of_y ?_
    | refine List.Forall₂.cons inClass_dash ?_
    | refine List.Forall₂.cons inClass_four ?_

/-- C22: every string produced by `generateUUID`, for every outcome of the random source, is
accepted by `UUIDUtils.isValidUUID`. -/
theorem generateUUID_isValid (rnd : Nat → Draw) (hr : ∀ k, (rnd k).valid) :
    isValidUUID (generateUUID rnd) = true := by
  have hall := replaceXY_forall₂ rnd hr uuidTemplate 0
  exact matchPieces_of_forall₂ uuidRegex _
    (forall₂_chain _ uuidCharOK _ (fun _ _ c h1 h2 => h1 c h2) _ _ _
      uuidRegex_covers_template hall)

theorem generateUUID_isValid_witness :
    (∀ k, ((fun _ => ⟨0, 1⟩ : Nat → Draw) k).valid) ∧
      generateUUID (fun _ => ⟨0, 1⟩) = "00000000-0000-4000-8000-000000000000".toList ∧
      isValidUUID "0000000-0000-4000-8000-000000000000".toList = false ∧
      isValidUUID (generateUUID (fun _ => ⟨0, 1⟩)) = true :=
  ⟨fun _ => Nat.zero_lt_one, rfl, by decide,
    generateUUID_isValid (fun _ => ⟨0, 1⟩) (fun _ => Nat.zero_lt_one)⟩

/-! ## Termination of the base conversion and alphabet adherence -/

theorem reprOf_mem (A : List Char) (hA : 2 ≤ A.length) (n : Nat) :
    ∀ c ∈ reprOf A n, c ∈ A := by
  intro c hc
  simp only [reprOf, List.mem_map] at hc
  obtain ⟨d, hd, rfl⟩ := hc
  exact digitChar_mem A d (beDigits_lt A.length n hA d hd)

theorem padPrefix_mem (A : List Char) (hA : 2 ≤ A.length) (k L : Nat) :
    ∀ c ∈ padPrefix A k L, c ∈ A := by
  intro c hc
  simp only [padPrefix, List.mem_map] at hc
  obtain ⟨j, _, rfl⟩ := hc
  exact digitChar_mem A _ (Nat.mod_lt _ (by omega))

/-- C23: for every character-class configuration the alphabet used by `generateHashID` has at
least 2 characters, so each iteration of the base-conversion loop replaces a positive `num` by
the strictly smaller `Math.floor(num / |alphabet|)` (as the code computes it on doubles, and
likewise for the exact quotient), and the loop ends for every non-negative integer `n` (fuel
for `n + 1` iterations is never used up). -/
theorem baseLoop_terminates (cfg : CharConfig) :
    2 ≤ (hashAlphabet cfg).length ∧
    (∀ num, 0 < num → num / (hashAlphabet cfg).length < num) ∧
    (∀ num, 0 < num → jsFloorDiv num (hashAlphabet cfg).length < num) ∧
    (∀ (fuel num : Nat) (hash : List Char),
      baseLoop (hashAlphabet cfg) (fuel + 1) num hash =
        if jsFloorDiv num (hashAlphabet cfg).length > 0 then
          baseLoop (hashAlphabet cfg) fuel (jsFloorDiv num (hashAlphabet cfg).length)
            (jsAt (hashAlphabet cfg) (num % (hashAlphabet cfg).length) ++ hash)
        else .ok (jsAt (hashAlphabet cfg) (num % (hashAlphabet cfg).length) ++ hash)) ∧
    ∀ (fuel n : Nat), n < fuel →
      ∃ u, baseConvert (hashAlphabet cfg) fuel n = .ok u ∧
        ∀ L : Nat, 1 ≤ L → n + L < fuel →
          ∃ s, generateHashID cfg (some (L : Int)) fuel n = .ok s := by
  have hA := hashAlphabet_length_ge cfg
  refine ⟨hA, fun num hnum => Nat.div_lt_self hnum (by omega),
    fun num hnum => jsFloorDiv_lt num _ hA hnum, fun _ _ _ => rfl, ?_⟩
  intro fuel n hn
  refine ⟨_, baseConvert_eq _ hA fuel n hn, ?_⟩
  intro L hL hfuel
  exact ⟨_, generateHashID_eq cfg L fuel n hL hfuel⟩

theorem baseLoop_terminates_witness :
    0 < 1189 ∧ 1189 / (hashAlphabet ⟨false, true, true, false⟩).length < 1189 ∧
      jsFloorDiv 1189 (hashAlphabet ⟨false, true, true, false⟩).length = 33 ∧
      jsFloorDiv (2 ^ 60) (hashAlphabet ⟨false, true, true, false⟩).length < 2 ^ 60 ∧
      1189 < 1190 ∧
      baseConvert (hashAlphabet ⟨false, true, true, false⟩) 1190 1189 = .ok "7b".toList ∧
      baseConvert (hashAlphabet ⟨false, true, true, false⟩) 2 1189 = .ok "7b".toList :=
  ⟨by decide,
    (baseLoop_terminates ⟨false, true, true, false⟩).2.1 1189 (by decide),
    by decide,
    (baseLoop_terminates ⟨false, true, true, false⟩).2.2.1 (2 ^ 60) (by decide),
    by decide, rfl, rfl⟩

/-- C24: for every non-negative integer `n`, configuration and desired length `L ≥ 1`, every
index used by `generateHashID` (`num mod |alphabet|` and the salted padding index) is within
the bounds of the alphabet, and every character of the result is a member of the resolved
alphabet. -/
theorem generateHashID_alphabet (cfg : CharConfig) (L fuel n : Nat) (hL : 1 ≤ L)
    (hfuel : n + L < fuel) :
    (∀ num : Nat, num % (hashAlphabet cfg).length < (hashAlphabet cfg).length ∧
      ∃ c, jsAt (hashAlphabet cfg) (num % (hashAlphabet cfg).length) = [c] ∧
        c ∈ hashAlphabet cfg) ∧
    (∀ hash : List Char, hash.length % salt.length < salt.length ∧
      saltIndex (hashAlphabet cfg) hash < (hashAlphabet cfg).length ∧
      ∃ c, jsAt (hashAlphabet cfg) (saltIndex (hashAlphabet cfg) hash) = [c] ∧
        c ∈ hashAlphabet cfg) ∧
    ∃ s, generateHashID cfg (some (L : Int)) fuel n = .ok s ∧
      ∀ c ∈ s, c ∈ hashAlphabet cfg := by
  have hA := hashAlphabet_length_ge cfg
  refine ⟨?_, ?_, ?_⟩
  · intro num
    have h : num % (hashAlphabet cfg).length < (hashAlphabet cfg).length :=
      Nat.mod_lt _ (by omega)
    exact ⟨h, _, jsAt_of_lt _ _ h, digitChar_mem _ _ h⟩
  · intro hash
    have h : saltIndex (hashAlphabet cfg) hash < (hashAlphabet cfg).length :=
      Nat.mod_lt _ (by omega)
    exact ⟨Nat.mod_lt _ (by decide), h, _, jsAt_of_lt _ _ h, digitChar_mem _ _ h⟩
  · rw [generateHashID_eq cfg L fuel n hL hfuel]
    refine ⟨_, rfl, ?_⟩
    intro c hc
    split at hc
    · rcases List.mem_append.mp hc with h | h
      · exact padPrefix_mem _ hA _ _ c h
      · exact reprJS_mem _ hA n c h
    · exact reprJS_mem _ hA n c (List.mem_of_mem_take hc)

theorem generateHashID_alphabet_witness :
    1 ≤ 6 ∧ 123 + 6 < 200 ∧
      generateHashID ⟨false, true, true, false⟩ (some ((6 : Nat) : Int)) 200 123 =
        .ok "cak9dp".toList ∧
      ∃ s, generateHashID ⟨false, true, true, false⟩ (some ((6 : Nat) : Int)) 200 123 = .ok s ∧
        ∀ c ∈ s, c ∈ hashAlphabet ⟨false, true, true, false⟩ :=
  ⟨by decide, by decide, rfl,
    (generateHashID_alphabet ⟨false, true, true, false⟩ 6 200 123 (by decide)
      (by decide)).2.2⟩

/-! ## The parts a slug is made of -/

theorem slugStep_parts (cfg : CharConfig) (P : Char → Prop) (hsep : P (separator cfg))
    (hcs : ∀ c ∈ slugCharset cfg, P c) (hwd : ∀ w ∈ words, ∀ c ∈ applyCase cfg w, P c)
    (T : Int) (rnd : Nat → Draw) (hr : ∀ k, (rnd k).valid) (k : Nat) (slug s : List Char)
    (k' : Nat) (h : slugStep cfg T rnd k slug = .ok (s, k')) :
    ∃ ext, s = slug ++ ext ∧ ∀ c ∈ ext, P c := by
  obtain ⟨w, hwmem, hw⟩ := pickWord_ok cfg (rnd k) (hr k)
  have hwords : w ∈ words := mem_words_of_getElem? _ w hwmem
  have hpad : P (digitChar (slugCharset cfg) ((rnd k).scale (slugCharset cfg).length)) :=
    hcs _ (digitChar_mem _ _ (Draw.scale_lt (rnd k) _ (hr k) (slugCharset_length_pos cfg)))
  obtain ⟨ext, hext, hextmem⟩ := fillLoop_ext cfg rnd hr
    (T - ((slug ++ [separator cfg]).length : Int)).toNat (k + 1) (slug ++ [separator cfg])
  simp only [slugStep, hw, padChar_eq cfg (rnd k) (hr k)] at h
  split_ifs at h <;> simp only [Except.ok.injEq, Prod.mk.injEq] at h <;>
    obtain ⟨h, -⟩ := h <;> subst h
  · exact ⟨_, rfl, fun c hc => by rw [List.mem_singleton.mp hc]; exact hpad⟩
  · refine ⟨separator cfg :: applyCase cfg w, by simp, ?_⟩
    intro c hc
    rcases List.mem_cons.mp hc with h | h
    · rw [h]; exact hsep
    · exact hwd w hwords c h
  · refine ⟨separator cfg :: ext, by rw [hext]; simp, ?_⟩
    intro c hc
    rcases List.mem_cons.mp hc with h | h
    · rw [h]; exact hsep
    · exact hcs c (hextmem c h)
  · refine ⟨[separator cfg,
      digitChar (slugCharset cfg) ((rnd k).scale (slugCharset cfg).length)], by simp, ?_⟩
    intro c hc
    simp only [List.mem_cons, List.mem_singleton, List.not_mem_nil, or_false] at hc
    rcases hc with h | h
    · rw [h]; exact hsep
    · rw [h]; exact hpad
  · exact ⟨[], by simp, by simp⟩

theorem slugLoop_parts (cfg : CharConfig) (P : Char → Prop) (hsep : P (separator cfg))
    (hcs : ∀ c ∈ slugCharset cfg, P c) (hwd : ∀ w ∈ words, ∀ c ∈ applyCase cfg w, P c)
    (T : Nat) (rnd : Nat → Draw) (hr : ∀ k, (rnd k).valid) :
    ∀ (fuel k : Nat) (slug : List Char), slug.length ≤ T → T ≤ fuel + slug.length →
      ∃ s k' ext, slugLoop cfg (T : Int) rnd fuel k slug = .ok (s, k') ∧ s.length = T ∧
        s = slug ++ ext ∧ ∀ c ∈ ext, P c := by
  intro fuel
  induction fuel with
  | zero =>
    intro k slug h1 h2
    exact ⟨slug, k, [], slugLoop_of_ge cfg T rnd 0 k slug (by omega), by omega, by simp,
      by simp⟩
  | succ fuel ih =>
    intro k slug h1 h2
    by_cases hlt : slug.length < T
    · obtain ⟨s1, k1, hstep, hg1, hg2⟩ := slugStep_grows cfg T rnd hr k slug hlt
      obtain ⟨ext1, he1, hm1⟩ := slugStep_parts cfg P hsep hcs hwd T rnd hr k slug s1 k1 hstep
      obtain ⟨s, k', ext, hs, hl, he, hm⟩ := ih k1 s1 hg2 (by omega)
      have hc : (slug.length : Int) < (T : Int) := by omega
      refine ⟨s, k', ext1 ++ ext, ?_, hl, by rw [he, he1]; simp, ?_⟩
      · rw [slugLoop_succ, if_pos hc, hstep]
        exact hs
      · intro c hc'
        rcases List.mem_append.mp hc' with h | h
        · exact hm1 c h
        · exact hm c h
    · exact ⟨slug, k, [], slugLoop_of_ge cfg T rnd _ k slug (by omega), by omega, by simp,
        by simp⟩

theorem slugLoop_of_not_lt (cfg : CharConfig) (T : Int) (rnd : Nat → Draw) (fuel k : Nat)
    (slug : List Char) (h : ¬ ((slug.length : Int) < T)) :
    slugLoop cfg T rnd fuel k slug = .ok (slug, k) := by
  cases fuel <;> simp [slugLoop, h]

theorem generateSlug_parts (cfg : CharConfig) (P : Char → Prop) (hsep : P (separator cfg))
    (hcs : ∀ c ∈ slugCharset cfg, P c) (hwd : ∀ w ∈ words, ∀ c ∈ applyCase cfg w, P c)
    (slider : Option Int) (rnd : Nat → Draw) (fuel : Nat) (hr : ∀ k, (rnd k).valid)
    (hfuel : orDefault slider 12 ≤ (fuel : Int)) :
    ∃ s, generateSlug cfg slider rnd fuel = .ok s ∧ ∀ c ∈ s, P c := by
  obtain ⟨w, hwmem, hw⟩ := pickWord_ok cfg (rnd 0) (hr 0)
  have hwords : w ∈ words := mem_words_of_getElem? _ w hwmem
  unfold generateSlug generateSlugAux
  simp only [hw]
  by_cases hfit : ((applyCase cfg w).length : Int) ≤ orDefault slider 12
  · obtain ⟨T, hT⟩ : ∃ T : Nat, orDefault slider 12 = (T : Int) :=
      ⟨(orDefault slider 12).toNat, by omega⟩
    rw [hT] at hfit hfuel ⊢
    obtain ⟨s, k', ext, hs, hsl, he, hm⟩ := slugLoop_parts cfg P hsep hcs hwd T rnd hr fuel 1
      (applyCase cfg w) (by omega) (by omega)
    rw [hs]
    have hc : ¬ ((s.length : Int) > (T : Int)) := by omega
    simp only [if_neg hc]
    refine ⟨s, rfl, ?_⟩
    intro c hc'
    rw [he] at hc'
    rcases List.mem_append.mp hc' with h | h
    · exact hwd w hwords c h
    · exact hm c h
  · rw [slugLoop_of_not_lt cfg _ rnd fuel 1 _ (by omega)]
    have hc : ((applyCase cfg w).length : Int) > orDefault slider 12 := by omega
    simp only [if_pos hc]
    refine ⟨_, rfl, ?_⟩
    intro c hc'
    exact hwd w hwords c (List.mem_of_mem_take hc')

/-- C21: the padding fallback of `generateSlug`: when no character class is enabled the padding
charset is `abcdefghijklmnopqrstuvwxyz` (no digits), every padding character appended (the
single characters and the characters of the fill loop) is one of the 26 lowercase letters, and
so every character of the slug is a lowercase letter or the separator `-`, for every value of
the length slider and every outcome of the random source. -/
theorem slug_padding_fallback (slider : Option Int) (rnd : Nat → Draw) (fuel : Nat)
    (hr : ∀ k, (rnd k).valid) (hfuel : orDefault slider 12 ≤ (fuel : Int)) :
    slugCharset ⟨false, false, false, false⟩ = "abcdefghijklmnopqrstuvwxyz".toList ∧
    (∀ k, ∃ c, jsAt (slugCharset ⟨false, false, false, false⟩)
        ((rnd k).scale (slugCharset ⟨false, false, false, false⟩).length) = [c] ∧
      c ∈ lowerChars) ∧
    (∀ (steps k : Nat) (slug : List Char),
      ∃ ext, (fillLoop (slugCharset ⟨false, false, false, false⟩) rnd steps k slug).1 =
          slug ++ ext ∧ ∀ c ∈ ext, c ∈ lowerChars) ∧
    ∃ s, generateSlug ⟨false, false, false, false⟩ slider rnd fuel = .ok s ∧
      ∀ c ∈ s, c ∈ lowerChars ∨ c = '-' := by
  have hcs : slugCharset ⟨false, false, false, false⟩ = lowerChars := rfl
  refine ⟨rfl, ?_, ?_, ?_⟩
  · intro k
    refine ⟨_, padChar_eq ⟨false, false, false, false⟩ (rnd k) (hr k), ?_⟩
    have h := digitChar_mem (slugCharset ⟨false, false, false, false⟩) _
      (Draw.scale_lt (rnd k) _ (hr k) (slugCharset_length_pos ⟨false, false, false, false⟩))
    rw [hcs] at h ⊢
    exact h
  · intro steps k slug
    obtain ⟨ext, h1, h2⟩ := fillLoop_ext ⟨false, false, false, false⟩ rnd hr steps k slug
    exact ⟨ext, h1, fun c hc => by have := h2 c hc; rw [hcs] at this; exact this⟩
  · refine generateSlug_parts ⟨false, false, false, false⟩ (fun c => c ∈ lowerChars ∨ c = '-')
      (Or.inr rfl) (fun c hc => Or.inl (by rw [hcs] at hc; exact hc)) ?_ slider rnd fuel hr
      hfuel
    intro w hw c hc
    have hcase : applyCase ⟨false, false, false, false⟩ w = w := rfl
    rw [hcase] at hc
    exact Or.inl ((words_lowercase w hw).1 c hc)

theorem slug_padding_fallback_witness :
    (∀ k, ((fun _ => ⟨7, 8⟩ : Nat → Draw) k).valid) ∧ orDefault (some 12) 12 ≤ ((12 : Nat) : Int) ∧
      generateSlug ⟨false, false, false, false⟩ (some 12) (fun _ => ⟨7, 8⟩) 12 =
        .ok "new-new-neww".toList ∧
      ∃ s, generateSlug ⟨false, false, false, false⟩ (some 12) (fun _ => ⟨7, 8⟩) 12 = .ok s ∧
        ∀ c ∈ s, c ∈ lowerChars ∨ c = '-' :=
  ⟨fun _ => (by decide : 7 < 8), by decide, rfl,
    (slug_padding_fallback (some 12) (fun _ => ⟨7, 8⟩) 12 (fun _ => (by decide : 7 < 8))
      (by decide)).2.2.2⟩

end IDGenerator
